import Mathlib

/-!
Verification of the extendible hash table in
src/container/hash/extendible_hash_table.cpp (BusTub).

The C++ class `ExtendibleHashTable<K, V>` keeps
  * `dir_`          : a vector of `shared_ptr<Bucket>` (the directory),
  * `global_depth_` : the number of low-order hash bits used for routing,
  * `num_buckets_`  : a bucket counter,
  * `bucket_size_`  : the fixed per-bucket capacity,
and each `Bucket` keeps a capacity `size_`, a local depth `depth_` and an
insertion-ordered `std::list<std::pair<K, V>> list_`.

We embed the state shallowly.  Shared-pointer aliasing is modelled with an
explicit heap: `buckets` is the list of all bucket objects ever allocated and
the directory `dir` stores heap indices; two directory slots alias the same
C++ bucket object exactly when they store the same index, and the pointer
comparison `dir_[i] == bucket` of the C++ split loop becomes equality of
indices.  Freshly allocated buckets receive fresh indices at the end of the
heap, so index equality coincides with pointer equality throughout.

`std::hash<K>` is an external deterministic function supplied by the standard
library; we model it as an explicit parameter `hash : K → Nat`.  Machine
integers are modelled as `Nat`: every quantity involved (`global_depth_`,
`num_buckets_`, sizes, masks, directory indices) is non-negative in the
source, and no claim depends on integer overflow.

The growth loop of `Insert` has no structural termination measure in the
source (it is a `while` loop, and, as proved below, it really can diverge),
so the loop is embedded with explicit fuel and returns `none` when the fuel
runs out; `none` for every fuel value means the C++ loop never exits.

Initial values: the data members `global_depth_{0}` and `num_buckets_{1}` are
initialized in the class declaration (`extendible_hash_table.h`), which is
not part of the sources under verification.  Modelled from the spec: the
table starts "with `global_depth = 0` and a single Bucket at `local_depth =
0` referenced by the sole slot", and `bucket_count` counts the buckets, so 1
initially.
-/

set_option linter.unusedSectionVars false

namespace ExtendibleHash

/-! ### The data model

`Bucket` mirrors the C++ `ExtendibleHashTable<K, V>::Bucket`
(`size_`, `depth_`, `list_`); `Table` mirrors `ExtendibleHashTable<K, V>`
(`bucket_size_`, `global_depth_`, `num_buckets_`, `dir_` as heap indices,
plus the heap `buckets` of every bucket object allocated so far). -/

structure Bucket (K V : Type) where
  size : Nat
  depth : Nat
  list : List (K × V)
deriving DecidableEq

structure Table (K V : Type) where
  bucketSize : Nat
  globalDepth : Nat
  numBuckets : Nat
  dir : List Nat
  buckets : List (Bucket K V)
deriving DecidableEq

variable {K V : Type} [DecidableEq K] [DecidableEq V] (hash : K → Nat)

/-- Modelled from the spec: Bucket::IsFull lives in the class header, which
is not under src/.  Spec section 4.2 fixes it as "IsFull → bool:
size == capacity", i.e. `list_.size() == size_`. -/
def Bucket.isFull (b : Bucket K V) : Bool :=
  b.list.length == b.size

/-- Bucket::Find (lines 149-158): linear scan, first matching key wins; the
out-parameter result is modelled as an `Option V`. -/
def Bucket.find? (b : Bucket K V) (k : K) : Option V :=
  (b.list.find? fun e => decide (e.1 = k)).map Prod.snd

/-- Bucket::Remove (lines 160-169): scan for the first pair whose key equals
`k`; if found, `list_.remove(pair)` erases every element equal (as a whole
pair) to that pair.  Earlier elements have a different key, hence differ from
the pair, so the filter over the whole list is exactly what the C++ does. -/
def Bucket.remove (b : Bucket K V) (k : K) : Bool × Bucket K V :=
  match b.list.find? fun e => decide (e.1 = k) with
  | none => (false, b)
  | some p => (true, { b with list := b.list.filter fun e => decide (e ≠ p) })

/-- Bucket::Insert (lines 171-178): refuse when full, else append. -/
def Bucket.insert (b : Bucket K V) (k : K) (v : V) : Bool × Bucket K V :=
  if b.isFull then (false, b)
  else (true, { b with list := b.list ++ [(k, v)] })

/-- Modelled from the spec: the member initial values `global_depth_ = 0`
and `num_buckets_ = 1` live in the class declaration (header, outside src/);
the spec fixes the start state as global depth 0, one bucket of local depth
0 in the sole slot.  The constructor body itself (lines 24-28) allocates one
bucket `Bucket(bucket_size, 0)` and pushes it into `dir_`; it performs no
validity check on `bucket_size`. -/
def mkTable (cap : Nat) : Table K V :=
  { bucketSize := cap, globalDepth := 0, numBuckets := 1,
    dir := [0], buckets := [⟨cap, 0, []⟩] }

/-- IndexOf (lines 30-34): `hash(key) & ((1 << global_depth_) - 1)`. -/
def IndexOf (t : Table K V) (k : K) : Nat :=
  hash k &&& (1 <<< t.globalDepth - 1)

/-- The bucket object referenced by directory slot `i`
(`dir_[i]` dereferenced). -/
def bucketAt (t : Table K V) (i : Nat) : Bucket K V :=
  t.buckets.getD (t.dir.getD i 0) ⟨0, 0, []⟩

/-- Heap index stored in the directory slot a key routes to (the identity of
the shared pointer `dir_[IndexOf(key)]`). -/
def targetId (t : Table K V) (k : K) : Nat :=
  t.dir.getD (IndexOf hash t k) 0

/-- The bucket object a key routes to (`dir_[IndexOf(key)]` dereferenced). -/
def targetBucket (t : Table K V) (k : K) : Bucket K V :=
  bucketAt t (IndexOf hash t k)

/-- Find (lines 69-76): route through the directory, delegate to the bucket. -/
def Find (t : Table K V) (k : K) : Option V :=
  (targetBucket hash t k).find? k

/-- Remove (lines 78-85): route, delegate to Bucket::Remove; the bucket is
shared, so the mutation lands in the heap slot `dir_[IndexOf(key)]`. -/
def Remove (t : Table K V) (k : K) : Bool × Table K V :=
  let r := (targetBucket hash t k).remove k
  (r.1, { t with buckets := t.buckets.set (targetId hash t k) r.2 })

/-- The redistribution loop of Insert (lines 111-118): each item of the old
bucket goes to `new_bucket1` when `hash(item.first) & mask == 0`, else to
`new_bucket2`, through Bucket::Insert (whose boolean result is ignored). -/
def redistribute (mask : Nat) :
    List (K × V) → Bucket K V → Bucket K V → Bucket K V × Bucket K V
  | [], lo, hi => (lo, hi)
  | e :: rest, lo, hi =>
    if hash e.1 &&& mask = 0 then
      redistribute mask rest (lo.insert e.1 e.2).2 hi
    else
      redistribute mask rest lo (hi.insert e.1 e.2).2

/-- The directory re-pointing loop of Insert (lines 120-128): every slot that
references the split bucket `bi` is redirected to `loId` or `hiId` according
to the slot index bit selected by `mask`.  `i` is the index of the first
element of `l` in the directory. -/
def repoint (bi mask loId hiId : Nat) : Nat → List Nat → List Nat
  | _, [] => []
  | i, b :: rest =>
    (if b = bi then (if i &&& mask = 0 then loId else hiId) else b) ::
      repoint bi mask loId hiId (i + 1) rest

/-- Directory widening (lines 95-102): increment `global_depth_` and double
`dir_`; after `dir_.resize(dir_num * 2)` the loop `dir_[i + dir_num] =
dir_[i]` makes the new vector exactly the old one appended to itself. -/
def widen (t : Table K V) : Table K V :=
  { t with globalDepth := t.globalDepth + 1, dir := t.dir ++ t.dir }

/-- One iteration of the growth loop of Insert (lines 91-129): widen the
directory when the full bucket has maximal depth, take the split bit from the
old depth, increment the shared bucket depth, allocate the two fresh
buckets (fresh heap indices = pointer identity of the new allocations),
redistribute, and re-point the slots that referenced the old bucket. -/
def splitStep (t : Table K V) (k : K) : Table K V :=
  let bi := targetId hash t k
  let bucket := targetBucket hash t k
  let t1 := if bucket.depth = t.globalDepth then widen t else t
  let mask := 1 <<< bucket.depth
  let buckets1 := t1.buckets.set bi { bucket with depth := bucket.depth + 1 }
  let p := redistribute hash mask bucket.list
    ⟨t.bucketSize, bucket.depth + 1, []⟩ ⟨t.bucketSize, bucket.depth + 1, []⟩
  { t1 with
    numBuckets := t1.numBuckets + 1,
    buckets := buckets1 ++ [p.1, p.2],
    dir := repoint bi mask buckets1.length (buckets1.length + 1) 0 t1.dir }

/-- The in-place update of the scan at lines 133-138: replace the value of
the first entry whose key equals `k`, keeping the stored key object. -/
def updateFirst (k : K) (v : V) : List (K × V) → List (K × V)
  | [] => []
  | e :: rest => if e.1 = k then (e.1, v) :: rest else e :: updateFirst k v rest

/-- The post-loop part of Insert (lines 131-140): update an existing key in
place, otherwise delegate to Bucket::Insert (append).  The in-place write
goes through Bucket::GetItems, a header accessor returning a mutable
reference to `list_` (spec: Bucket stores an insertion-ordered sequence the
directory updates in place). -/
def upsert (t : Table K V) (k : K) (v : V) : Table K V :=
  let bi := targetId hash t k
  let b := targetBucket hash t k
  match b.list.find? fun e => decide (e.1 = k) with
  | some _ => { t with buckets := t.buckets.set bi { b with list := updateFirst k v b.list } }
  | none => { t with buckets := t.buckets.set bi (b.insert k v).2 }

/-- The `while (dir_[IndexOf(key)]->IsFull())` loop of Insert, with explicit
fuel; `none` means the loop did not exit within `fuel` iterations (for every
fuel simultaneously: the C++ loop never exits). -/
def insertLoop : Nat → Table K V → K → Option (Table K V)
  | 0, _, _ => none
  | fuel + 1, t, k =>
    if (targetBucket hash t k).isFull then
      insertLoop fuel (splitStep hash t k) k
    else some t

/-- Insert (lines 87-141): growth loop, then upsert into the routed bucket. -/
def Insert (fuel : Nat) (t : Table K V) (k : K) (v : V) : Option (Table K V) :=
  (insertLoop hash fuel t k).map fun t1 => upsert hash t1 k v

/-- GetGlobalDepth (lines 36-45). -/
def GetGlobalDepth (t : Table K V) : Nat :=
  t.globalDepth

/-- GetNumBuckets (lines 58-67). -/
def GetNumBuckets (t : Table K V) : Nat :=
  t.numBuckets

/-- GetLocalDepth (lines 47-56) evaluates `dir_[dir_index]->GetDepth()` with
no bounds check of any kind: for `dir_index` outside the directory the
`std::vector::operator[]` access has undefined behavior and signals nothing.
The unchecked access is modelled with `get?`: `none` is the out-of-range
case, in which the source has no defined result and raises no error. -/
def GetLocalDepth? (t : Table K V) (i : Nat) : Option Nat :=
  (t.dir.get? i).bind fun bi => (t.buckets.get? bi).map Bucket.depth

/-- One caller-visible operation (Find is read-only and is kept in the
alphabet so that "any sequence of Insert/Find/Remove operations" can be
quantified literally). -/
inductive Op (K V : Type) where
  | ins (k : K) (v : V)
  | rem (k : K)
  | qry (k : K)

/-- Effect of one operation on the state; an `ins` that never exits its
growth loop has no successor state. -/
def applyOp (fuel : Nat) (t : Table K V) : Op K V → Option (Table K V)
  | .ins k v => Insert hash fuel t k v
  | .rem k => some (Remove hash t k).2
  | .qry _ => some t

/-- Effect of a sequence of operations. -/
def applyOps (fuel : Nat) : List (Op K V) → Table K V → Option (Table K V)
  | [], t => some t
  | op :: ops, t => (applyOp hash fuel t op).bind (applyOps fuel ops)

/-- An operation that neither removes `k` nor inserts `k` with a value other
than `v` (the side condition of the round-trip property). -/
def okOp (k : K) (v : V) : Op K V → Prop
  | .ins k2 v2 => k2 ≠ k ∨ v2 = v
  | .rem k2 => k2 ≠ k
  | .qry _ => True

/-- States reachable from a validly constructed table (capacity at least 1)
by completed Insert and Remove calls (Find does not change the state). -/
inductive Reachable : Table K V → Prop where
  | init : ∀ cap : Nat, 1 ≤ cap → Reachable (mkTable cap)
  | insStep : ∀ (t : Table K V) (fuel : Nat) (k : K) (v : V) (t' : Table K V),
      Reachable t → Insert hash fuel t k v = some t' → Reachable t'
  | remStep : ∀ (t : Table K V) (k : K),
      Reachable t → Reachable (Remove hash t k).2

/-- The structural invariant of the table (spec section 3, I1 to I4, plus the
bookkeeping facts the source maintains): directory length (I1), heap indices
in range, local depth at most global depth (I2), slot sharing (I3: two slots
reference the same bucket exactly when they agree on the low-order
local-depth bits), entry routing (I4), capacity bookkeeping, and key
uniqueness inside each referenced bucket. -/
structure Inv (t : Table K V) : Prop where
  dirLen : t.dir.length = 2 ^ t.globalDepth
  wf : ∀ i, i < t.dir.length → t.dir.getD i 0 < t.buckets.length
  depthLe : ∀ i, i < t.dir.length → (bucketAt t i).depth ≤ t.globalDepth
  share : ∀ i, i < t.dir.length → ∀ j, j < t.dir.length →
    (t.dir.getD j 0 = t.dir.getD i 0 ↔
      j % 2 ^ (bucketAt t i).depth = i % 2 ^ (bucketAt t i).depth)
  route : ∀ i, i < t.dir.length → ∀ e ∈ (bucketAt t i).list,
    hash e.1 % 2 ^ (bucketAt t i).depth = i % 2 ^ (bucketAt t i).depth
  sizeEq : ∀ i, i < t.dir.length → (bucketAt t i).size = t.bucketSize
  lenLe : ∀ i, i < t.dir.length → (bucketAt t i).list.length ≤ (bucketAt t i).size
  nodup : ∀ i, i < t.dir.length → ((bucketAt t i).list.map Prod.fst).Nodup

/-! ### Arithmetic helpers about low-order bits -/

theorem two_pow_pos (n : Nat) : 0 < 2 ^ n := Nat.pos_pow_of_pos n (by decide)

theorem and_mask_eq_mod (x g : Nat) : x &&& (1 <<< g - 1) = x % 2 ^ g := by
  rw [Nat.one_shiftLeft, Nat.and_pow_two_sub_one_eq_mod]

theorem and_shift_eq_zero_iff (x d : Nat) : x &&& 1 <<< d = 0 ↔ x / 2 ^ d % 2 = 0 := by
  rw [Nat.one_shiftLeft, Nat.and_two_pow, Nat.testBit_to_div_mod]
  have hp : 2 ^ d ≠ 0 := Nat.pos_iff_ne_zero.mp (two_pow_pos d)
  rcases Nat.mod_two_eq_zero_or_one (x / 2 ^ d) with h | h <;> simp [h, hp]

theorem mod_two_pow_succ (x d : Nat) :
    x % 2 ^ (d + 1) = x % 2 ^ d + 2 ^ d * (x / 2 ^ d % 2) := by
  rw [pow_succ, Nat.mod_mul]

theorem mod_two_pow_succ_eq_iff (i j d : Nat) :
    j % 2 ^ (d + 1) = i % 2 ^ (d + 1) ↔
      j % 2 ^ d = i % 2 ^ d ∧ j / 2 ^ d % 2 = i / 2 ^ d % 2 := by
  rw [mod_two_pow_succ, mod_two_pow_succ]
  have hj : j % 2 ^ d < 2 ^ d := Nat.mod_lt _ (two_pow_pos d)
  have hi : i % 2 ^ d < 2 ^ d := Nat.mod_lt _ (two_pow_pos d)
  rcases Nat.mod_two_eq_zero_or_one (j / 2 ^ d) with h1 | h1 <;>
    rcases Nat.mod_two_eq_zero_or_one (i / 2 ^ d) with h2 | h2 <;>
      simp [h1, h2] <;> omega

theorem mod_mod_two_pow_of_le {d g : Nat} (x : Nat) (h : d ≤ g) :
    x % 2 ^ g % 2 ^ d = x % 2 ^ d :=
  Nat.mod_mod_of_dvd x (pow_dvd_pow 2 h)

theorem mod_two_pow_div_mod_two {d g : Nat} (x : Nat) (h : d < g) :
    x % 2 ^ g / 2 ^ d % 2 = x / 2 ^ d % 2 := by
  have h1 := Nat.testBit_mod_two_pow x g d
  rw [Nat.testBit_to_div_mod, Nat.testBit_to_div_mod] at h1
  simp only [h, decide_True, Bool.true_and] at h1
  rcases Nat.mod_two_eq_zero_or_one (x % 2 ^ g / 2 ^ d) with h2 | h2 <;>
    rcases Nat.mod_two_eq_zero_or_one (x / 2 ^ d) with h3 | h3 <;>
      simp [h2, h3] at h1 ⊢

theorem mod_lt_two_pow (x g : Nat) : x % 2 ^ g < 2 ^ g :=
  Nat.mod_lt _ (two_pow_pos g)

/-! ### List helpers -/

theorem getD_doubled {α : Type} (l : List α) (j : Nat) (d : α)
    (h : j < 2 * l.length) : (l ++ l).getD j d = l.getD (j % l.length) d := by
  rcases Nat.lt_or_ge j l.length with hj | hj
  · rw [List.getD_append _ _ _ _ hj, Nat.mod_eq_of_lt hj]
  · have hpos : 0 < l.length := by omega
    have hsub : j - l.length < l.length := by omega
    have hmod : j % l.length = j - l.length := by
      rw [Nat.mod_eq_sub_mod hj, Nat.mod_eq_of_lt hsub]
    rw [hmod, List.getD_eq_getElem?_getD, List.getElem?_append_right hj,
      ← List.getD_eq_getElem?_getD]

theorem set_getD_self {α : Type} (l : List α) (i : Nat) (d : α) :
    l.set i (l.getD i d) = l := by
  induction l generalizing i with
  | nil => rfl
  | cons a rest ih =>
    cases i with
    | zero => rfl
    | succ n =>
      rw [List.getD_cons_succ]
      show a :: rest.set n (rest.getD n d) = a :: rest
      rw [ih]

theorem getD_set_self {α : Type} (l : List α) (i : Nat) (a d : α)
    (h : i < l.length) : (l.set i a).getD i d = a := by
  induction l generalizing i with
  | nil => simp at h
  | cons b rest ih =>
    cases i with
    | zero => rfl
    | succ n =>
      simp only [List.length_cons] at h
      exact ih n (by omega)

theorem getD_set_ne {α : Type} (l : List α) (i j : Nat) (a d : α)
    (h : i ≠ j) : (l.set i a).getD j d = l.getD j d := by
  induction l generalizing i j with
  | nil => rfl
  | cons b rest ih =>
    cases i with
    | zero => cases j with
      | zero => exact absurd rfl h
      | succ m => rfl
    | succ n => cases j with
      | zero => rfl
      | succ m => exact ih n m (by omega)

theorem getD_append_left {α : Type} (l l' : List α) (i : Nat) (d : α)
    (h : i < l.length) : (l ++ l').getD i d = l.getD i d :=
  List.getD_append _ _ _ _ h

theorem getD_append_right {α : Type} (l l' : List α) (i : Nat) (d : α)
    (h : l.length ≤ i) : (l ++ l').getD i d = l'.getD (i - l.length) d := by
  rw [List.getD_eq_getElem?_getD, List.getElem?_append_right h,
    ← List.getD_eq_getElem?_getD]

theorem find?_filter_compat {α : Type} (q p : α → Bool) (l : List α)
    (h : ∀ e, q e = true → p e = true) :
    (l.filter p).find? q = l.find? q := by
  induction l with
  | nil => rfl
  | cons e rest ih =>
    by_cases hp : p e
    · rw [List.filter_cons_of_pos hp]
      cases hq : q e
      · rw [List.find?_cons_of_neg _ (by simp [hq]),
          List.find?_cons_of_neg _ (by simp [hq]), ih]
      · rw [List.find?_cons_of_pos _ hq, List.find?_cons_of_pos _ hq]
    · have hq : q e = false := by
        cases hq : q e
        · rfl
        · exact absurd (h e hq) hp
      rw [List.filter_cons_of_neg (by simp [hp]),
        List.find?_cons_of_neg _ (by simp [hq]), ih]

/-! ### Routing basics -/

theorem IndexOf_eq_mod (t : Table K V) (k : K) :
    IndexOf hash t k = hash k % 2 ^ t.globalDepth :=
  and_mask_eq_mod _ _

theorem IndexOf_lt_dirLen {t : Table K V} (hlen : t.dir.length = 2 ^ t.globalDepth)
    (k : K) : IndexOf hash t k < t.dir.length := by
  rw [IndexOf_eq_mod, hlen]; exact mod_lt_two_pow _ _

theorem inv_mkTable (cap : Nat) : Inv hash (mkTable cap : Table K V) := by
  have hone : ∀ i : Nat, i < (mkTable cap : Table K V).dir.length → i = 0 := by
    intro i hi
    simp only [mkTable, List.length_cons, List.length_nil] at hi
    omega
  constructor
  · rfl
  · intro i hi; rw [hone i hi]; simp [mkTable]
  · intro i hi; rw [hone i hi]; simp [bucketAt, mkTable]
  · intro i hi j hj; rw [hone i hi, hone j hj]; simp
  · intro i hi e he; rw [hone i hi] at he; simp [bucketAt, mkTable] at he
  · intro i hi; rw [hone i hi]; simp [bucketAt, mkTable]
  · intro i hi; rw [hone i hi]; simp [bucketAt, mkTable]
  · intro i hi; rw [hone i hi]; simp [bucketAt, mkTable]

theorem inv_mkTable_dirLen (cap : Nat) :
    (mkTable cap : Table K V).dir.length = 2 ^ (mkTable cap : Table K V).globalDepth :=
  rfl

/-! ### Bucket operation lemmas -/

theorem Bucket.find?_eq_none_iff (b : Bucket K V) (k : K) :
    b.find? k = none ↔ b.list.find? (fun e => decide (e.1 = k)) = none := by
  unfold Bucket.find?
  cases b.list.find? fun e => decide (e.1 = k) <;> simp

theorem Bucket.remove_of_absent (b : Bucket K V) (k : K)
    (h : b.list.find? (fun e => decide (e.1 = k)) = none) :
    b.remove k = (false, b) := by
  unfold Bucket.remove
  rw [h]

/-- Remove on a key that its routed bucket does not hold returns false and
leaves the table exactly unchanged. -/
theorem Remove_absent (t : Table K V) (k : K)
    (h : Find hash t k = none) : Remove hash t k = (false, t) := by
  unfold Find at h
  rw [Bucket.find?_eq_none_iff] at h
  simp only [Remove]
  rw [Bucket.remove_of_absent _ _ h]
  show (false, { t with buckets := t.buckets.set (targetId hash t k) (targetBucket hash t k) }) = _
  unfold targetBucket bucketAt targetId
  rw [set_getD_self]

/-! ### Redistribution and re-pointing, characterized -/

theorem redistribute_spec (mask : Nat) (l : List (K × V)) (lo hi : Bucket K V)
    (hlo : lo.list.length + (l.filter fun e => decide (hash e.1 &&& mask = 0)).length ≤ lo.size)
    (hhi : hi.list.length + (l.filter fun e => decide (¬hash e.1 &&& mask = 0)).length ≤ hi.size) :
    redistribute hash mask l lo hi =
      ({ lo with list := lo.list ++ l.filter fun e => decide (hash e.1 &&& mask = 0) },
       { hi with list := hi.list ++ l.filter fun e => decide (¬hash e.1 &&& mask = 0) }) := by
  induction l generalizing lo hi with
  | nil => simp [redistribute]
  | cons e rest ih =>
    by_cases hb : hash e.1 &&& mask = 0
    · rw [List.filter_cons_of_pos (by simpa using hb)] at hlo ⊢
      rw [List.filter_cons_of_neg (by simpa using hb)] at hhi ⊢
      simp only [redistribute, if_pos hb]
      have hnf : lo.isFull = false := by
        unfold Bucket.isFull
        simp only [List.length_cons] at hlo
        simp only [beq_eq_false_iff_ne, ne_eq]
        omega
      simp only [Bucket.insert, hnf, Bool.false_eq_true, if_false]
      rw [ih]
      · simp [List.append_assoc]
      · simp only [List.length_append, List.length_cons, List.length_nil] at hlo ⊢
        omega
      · exact hhi
    · rw [List.filter_cons_of_neg (by simpa using hb)] at hlo ⊢
      rw [List.filter_cons_of_pos (by simpa using hb)] at hhi ⊢
      simp only [redistribute, if_neg hb]
      have hnf : hi.isFull = false := by
        unfold Bucket.isFull
        simp only [List.length_cons] at hhi
        simp only [beq_eq_false_iff_ne, ne_eq]
        omega
      simp only [Bucket.insert, hnf, Bool.false_eq_true, if_false]
      rw [ih]
      · simp [List.append_assoc]
      · exact hlo
      · simp only [List.length_append, List.length_cons, List.length_nil] at hhi ⊢
        omega

theorem redistribute_empty (mask : Nat) (l : List (K × V)) (cap dep : Nat)
    (hl : l.length ≤ cap) :
    redistribute hash mask l ⟨cap, dep, []⟩ ⟨cap, dep, []⟩ =
      (⟨cap, dep, l.filter fun e => decide (hash e.1 &&& mask = 0)⟩,
       ⟨cap, dep, l.filter fun e => decide (¬hash e.1 &&& mask = 0)⟩) := by
  rw [redistribute_spec]
  · simp
  · simpa using le_trans (List.length_filter_le _ _) hl
  · simpa using le_trans (List.length_filter_le _ _) hl

theorem repoint_length (bi mask lo hi : Nat) (i : Nat) (l : List Nat) :
    (repoint bi mask lo hi i l).length = l.length := by
  induction l generalizing i with
  | nil => rfl
  | cons b rest ih => simp [repoint, ih]

theorem repoint_getD (bi mask lo hi : Nat) (i j : Nat) (l : List Nat)
    (h : j < l.length) :
    (repoint bi mask lo hi i l).getD j 0 =
      if l.getD j 0 = bi then (if (i + j) &&& mask = 0 then lo else hi)
      else l.getD j 0 := by
  induction l generalizing i j with
  | nil => simp at h
  | cons b rest ih =>
    cases j with
    | zero => simp [repoint]
    | succ m =>
      simp only [repoint, List.getD_cons_succ]
      rw [ih (i + 1) m (by simpa using h)]
      have : i + 1 + m = i + (m + 1) := by omega
      rw [this]

/-! ### One split iteration, characterized (no-widening case) -/

theorem splitStep_facts (t : Table K V) (k : K)
    (hsz : (targetBucket hash t k).size = t.bucketSize)
    (hln : (targetBucket hash t k).list.length ≤ (targetBucket hash t k).size)
    (hd : (targetBucket hash t k).depth ≠ t.globalDepth) :
    (splitStep hash t k).globalDepth = t.globalDepth
    ∧ (splitStep hash t k).bucketSize = t.bucketSize
    ∧ (splitStep hash t k).numBuckets = t.numBuckets + 1
    ∧ (splitStep hash t k).dir.length = t.dir.length
    ∧ (splitStep hash t k).buckets.length = t.buckets.length + 2
    ∧ (∀ j, j < t.dir.length → (splitStep hash t k).dir.getD j 0 =
        if t.dir.getD j 0 = targetId hash t k
        then (if j &&& 1 <<< (targetBucket hash t k).depth = 0
              then t.buckets.length else t.buckets.length + 1)
        else t.dir.getD j 0)
    ∧ (splitStep hash t k).buckets.getD t.buckets.length ⟨0, 0, []⟩ =
        ⟨t.bucketSize, (targetBucket hash t k).depth + 1,
         (targetBucket hash t k).list.filter fun e =>
           decide (hash e.1 &&& 1 <<< (targetBucket hash t k).depth = 0)⟩
    ∧ (splitStep hash t k).buckets.getD (t.buckets.length + 1) ⟨0, 0, []⟩ =
        ⟨t.bucketSize, (targetBucket hash t k).depth + 1,
         (targetBucket hash t k).list.filter fun e =>
           decide (¬hash e.1 &&& 1 <<< (targetBucket hash t k).depth = 0)⟩
    ∧ (∀ u, u < t.buckets.length → u ≠ targetId hash t k →
        (splitStep hash t k).buckets.getD u ⟨0, 0, []⟩ = t.buckets.getD u ⟨0, 0, []⟩) := by
  have hred := redistribute_empty hash (1 <<< (targetBucket hash t k).depth)
    (targetBucket hash t k).list t.bucketSize ((targetBucket hash t k).depth + 1)
    (hsz ▸ hln)
  refine ⟨?_, ?_, ?_, ?_, ?_, ?_, ?_, ?_, ?_⟩
  · simp [splitStep, hd]
  · simp [splitStep, hd]
  · simp [splitStep, hd]
  · simp [splitStep, hd, repoint_length]
  · simp [splitStep, hd]
  · intro j hj
    simp only [splitStep, if_neg hd, List.length_set]
    rw [repoint_getD _ _ _ _ _ _ _ hj]
    simp only [Nat.zero_add]
  · simp only [splitStep, if_neg hd, hred, List.length_set]
    rw [getD_append_right _ _ _ _ (by simp)]
    simp
  · simp only [splitStep, if_neg hd, hred, List.length_set]
    rw [getD_append_right _ _ _ _ (by simp)]
    simp
  · intro u hu hne
    simp only [splitStep, if_neg hd, List.length_set]
    rw [getD_append_left _ _ _ _ (by simpa using hu)]
    exact getD_set_ne _ _ _ _ _ (Ne.symm hne)

/-! ### Directory widening preserves the invariant and all lookups -/

theorem widen_dir_getD (t : Table K V) (j : Nat)
    (hj : j < (widen t).dir.length) :
    (widen t).dir.getD j 0 = t.dir.getD (j % t.dir.length) 0 := by
  unfold widen at hj ⊢
  apply getD_doubled
  simp only [List.length_append] at hj
  omega

theorem widen_bucketAt (t : Table K V) (j : Nat)
    (hj : j < (widen t).dir.length) :
    bucketAt (widen t) j = bucketAt t (j % t.dir.length) := by
  unfold bucketAt
  rw [widen_dir_getD t j hj]
  rfl

theorem widen_dir_length (t : Table K V) :
    (widen t).dir.length = 2 * t.dir.length := by
  simp [widen, two_mul]

theorem inv_widen {t : Table K V} (hInv : Inv hash t) : Inv hash (widen t) := by
  have hlen := hInv.dirLen
  have hpos : 0 < t.dir.length := hlen ▸ two_pow_pos _
  have hmod : ∀ j : Nat, j < (widen t).dir.length → j % t.dir.length < t.dir.length :=
    fun j _ => Nat.mod_lt _ hpos
  constructor
  · show (t.dir ++ t.dir).length = 2 ^ (t.globalDepth + 1)
    simp only [List.length_append, hlen, pow_succ]
    omega
  · intro j hj
    rw [widen_dir_getD t j hj]
    exact hInv.wf _ (hmod j hj)
  · intro j hj
    rw [widen_bucketAt t j hj]
    exact le_trans (hInv.depthLe _ (hmod j hj)) (Nat.le_succ _)
  · intro i hi j hj
    rw [widen_bucketAt t i hi, widen_dir_getD t j hj, widen_dir_getD t i hi]
    rw [hInv.share _ (hmod i hi) _ (hmod j hj)]
    have key : ∀ dep : Nat, dep ≤ t.globalDepth →
        (j % t.dir.length % 2 ^ dep = i % t.dir.length % 2 ^ dep ↔
          j % 2 ^ dep = i % 2 ^ dep) := by
      intro dep hdep
      rw [hlen, mod_mod_two_pow_of_le _ hdep, mod_mod_two_pow_of_le _ hdep]
    exact key _ (hInv.depthLe _ (hmod i hi))
  · intro i hi e he
    rw [widen_bucketAt t i hi] at he ⊢
    have key : ∀ dep : Nat, dep ≤ t.globalDepth →
        i % t.dir.length % 2 ^ dep = i % 2 ^ dep := by
      intro dep hdep
      rw [hlen, mod_mod_two_pow_of_le _ hdep]
    rw [hInv.route _ (hmod i hi) e he, key _ (hInv.depthLe _ (hmod i hi))]
  · intro j hj
    rw [widen_bucketAt t j hj]
    exact hInv.sizeEq _ (hmod j hj)
  · intro j hj
    rw [widen_bucketAt t j hj]
    exact hInv.lenLe _ (hmod j hj)
  · intro j hj
    rw [widen_bucketAt t j hj]
    exact hInv.nodup _ (hmod j hj)

theorem widen_dirLen {t : Table K V} (hlen : t.dir.length = 2 ^ t.globalDepth) :
    (widen t).dir.length = 2 ^ (widen t).globalDepth := by
  rw [widen_dir_length, hlen]
  show 2 * 2 ^ t.globalDepth = 2 ^ (t.globalDepth + 1)
  rw [pow_succ]
  omega

theorem widen_targetId {t : Table K V} (hlen : t.dir.length = 2 ^ t.globalDepth)
    (k : K) : targetId hash (widen t) k = targetId hash t k := by
  unfold targetId
  have hlt : IndexOf hash (widen t) k < (widen t).dir.length :=
    IndexOf_lt_dirLen hash (widen_dirLen hlen) k
  rw [widen_dir_getD t _ hlt]
  congr 1
  rw [IndexOf_eq_mod, IndexOf_eq_mod, hlen]
  show hash k % 2 ^ (t.globalDepth + 1) % 2 ^ t.globalDepth = _
  rw [mod_mod_two_pow_of_le _ (Nat.le_succ _)]

theorem widen_targetBucket {t : Table K V} (hlen : t.dir.length = 2 ^ t.globalDepth)
    (k : K) : targetBucket hash (widen t) k = targetBucket hash t k := by
  unfold targetBucket bucketAt
  rw [show (widen t).dir.getD (IndexOf hash (widen t) k) 0 =
        targetId hash (widen t) k from rfl,
    widen_targetId hash hlen k]
  rfl

theorem Find_widen {t : Table K V} (hlen : t.dir.length = 2 ^ t.globalDepth)
    (k2 : K) : Find hash (widen t) k2 = Find hash t k2 := by
  unfold Find
  rw [widen_targetBucket hash hlen k2]

theorem splitStep_eq_widen {t : Table K V} (hlen : t.dir.length = 2 ^ t.globalDepth)
    (k : K) (hd : (targetBucket hash t k).depth = t.globalDepth) :
    splitStep hash t k = splitStep hash (widen t) k := by
  have hd2 : ¬(targetBucket hash t k).depth = (widen t).globalDepth := by
    rw [hd]
    show ¬t.globalDepth = t.globalDepth + 1
    omega
  simp only [splitStep, if_pos hd,
    widen_targetId hash hlen k, widen_targetBucket hash hlen k, if_neg hd2]
  rfl

/-! ### One split iteration preserves the invariant (no-widening case) -/

theorem splitStep_noWiden (t : Table K V) (k : K) (hInv : Inv hash t)
    (hd : (targetBucket hash t k).depth ≠ t.globalDepth) :
    Inv hash (splitStep hash t k)
    ∧ (splitStep hash t k).globalDepth = t.globalDepth
    ∧ (∀ k2, Find hash (splitStep hash t k) k2 = Find hash t k2)
    ∧ targetBucket hash (splitStep hash t k) k =
        (if hash k &&& 1 <<< (targetBucket hash t k).depth = 0
         then ⟨t.bucketSize, (targetBucket hash t k).depth + 1,
               (targetBucket hash t k).list.filter fun e =>
                 decide (hash e.1 &&& 1 <<< (targetBucket hash t k).depth = 0)⟩
         else ⟨t.bucketSize, (targetBucket hash t k).depth + 1,
               (targetBucket hash t k).list.filter fun e =>
                 decide (¬hash e.1 &&& 1 <<< (targetBucket hash t k).depth = 0)⟩) := by
  have hlen := hInv.dirLen
  have hi0 : IndexOf hash t k < t.dir.length := IndexOf_lt_dirLen hash hlen k
  have hsz : (targetBucket hash t k).size = t.bucketSize := hInv.sizeEq _ hi0
  have hln : (targetBucket hash t k).list.length ≤ (targetBucket hash t k).size :=
    hInv.lenLe _ hi0
  obtain ⟨hA, hB, hC, hD, hE, hF, hG, hH, hI⟩ := splitStep_facts hash t k hsz hln hd
  have hdlt : (targetBucket hash t k).depth < t.globalDepth :=
    lt_of_le_of_ne (hInv.depthLe _ hi0) hd
  have hclass : ∀ j, j < t.dir.length →
      (t.dir.getD j 0 = targetId hash t k ↔
        j % 2 ^ (targetBucket hash t k).depth =
          IndexOf hash t k % 2 ^ (targetBucket hash t k).depth) := by
    intro j hj
    exact hInv.share _ hi0 j hj
  have hbitD : ∀ x : Nat, x &&& 1 <<< (targetBucket hash t k).depth = 0 ↔
      x / 2 ^ (targetBucket hash t k).depth % 2 = 0 :=
    fun x => and_shift_eq_zero_iff x _
  have hbitN : ∀ x : Nat, ¬x &&& 1 <<< (targetBucket hash t k).depth = 0 →
      x / 2 ^ (targetBucket hash t k).depth % 2 = 1 := by
    intro x hx
    rcases Nat.mod_two_eq_zero_or_one (x / 2 ^ (targetBucket hash t k).depth) with h | h
    · exact absurd ((hbitD x).mpr h) hx
    · exact h
  have hdirC : ∀ j, j < t.dir.length →
      (splitStep hash t k).dir.getD j 0 =
        if j % 2 ^ (targetBucket hash t k).depth =
            IndexOf hash t k % 2 ^ (targetBucket hash t k).depth
        then (if j &&& 1 <<< (targetBucket hash t k).depth = 0
              then t.buckets.length else t.buckets.length + 1)
        else t.dir.getD j 0 := by
    intro j hj
    rw [hF j hj]
    by_cases hc : t.dir.getD j 0 = targetId hash t k
    · rw [if_pos hc, if_pos ((hclass j hj).mp hc)]
    · rw [if_neg hc, if_neg fun hcc => hc ((hclass j hj).mpr hcc)]
  have hsb : ∀ j, j < t.dir.length →
      bucketAt (splitStep hash t k) j =
        if j % 2 ^ (targetBucket hash t k).depth =
            IndexOf hash t k % 2 ^ (targetBucket hash t k).depth
        then (if j &&& 1 <<< (targetBucket hash t k).depth = 0
          then ⟨t.bucketSize, (targetBucket hash t k).depth + 1,
                (targetBucket hash t k).list.filter fun e =>
                  decide (hash e.1 &&& 1 <<< (targetBucket hash t k).depth = 0)⟩
          else ⟨t.bucketSize, (targetBucket hash t k).depth + 1,
                (targetBucket hash t k).list.filter fun e =>
                  decide (¬hash e.1 &&& 1 <<< (targetBucket hash t k).depth = 0)⟩)
        else bucketAt t j := by
    intro j hj
    show (splitStep hash t k).buckets.getD ((splitStep hash t k).dir.getD j 0) ⟨0, 0, []⟩ = _
    rw [hdirC j hj]
    by_cases hc : j % 2 ^ (targetBucket hash t k).depth =
        IndexOf hash t k % 2 ^ (targetBucket hash t k).depth
    · rw [if_pos hc, if_pos hc]
      by_cases hbit : j &&& 1 <<< (targetBucket hash t k).depth = 0
      · rw [if_pos hbit, if_pos hbit]
        exact hG
      · rw [if_neg hbit, if_neg hbit]
        exact hH
    · rw [if_neg hc, if_neg hc]
      exact hI _ (hInv.wf _ hj) fun h => hc ((hclass j hj).mp h)
  refine ⟨⟨?_, ?_, ?_, ?_, ?_, ?_, ?_, ?_⟩, hA, ?_, ?_⟩
  · rw [hD, hA, hlen]
  · intro j hj'
    have hj : j < t.dir.length := hD ▸ hj'
    rw [hdirC j hj, hE]
    have := hInv.wf j hj
    split_ifs <;> omega
  · intro j hj'
    have hj : j < t.dir.length := hD ▸ hj'
    rw [hsb j hj, hA]
    split_ifs
    · exact Nat.succ_le_of_lt hdlt
    · exact Nat.succ_le_of_lt hdlt
    · exact hInv.depthLe j hj
  · intro i hi' j hj'
    have hi : i < t.dir.length := hD ▸ hi'
    have hj : j < t.dir.length := hD ▸ hj'
    by_cases hci : i % 2 ^ (targetBucket hash t k).depth =
        IndexOf hash t k % 2 ^ (targetBucket hash t k).depth
    · by_cases hbi : i &&& 1 <<< (targetBucket hash t k).depth = 0
      · rw [hsb i hi, if_pos hci, if_pos hbi, hdirC i hi, if_pos hci, if_pos hbi,
          hdirC j hj]
        show _ ↔ j % 2 ^ ((targetBucket hash t k).depth + 1) =
          i % 2 ^ ((targetBucket hash t k).depth + 1)
        rw [mod_two_pow_succ_eq_iff]
        constructor
        · intro hLL
          by_cases hcj : j % 2 ^ (targetBucket hash t k).depth =
              IndexOf hash t k % 2 ^ (targetBucket hash t k).depth
          · by_cases hbj : j &&& 1 <<< (targetBucket hash t k).depth = 0
            · exact ⟨hcj.trans hci.symm, ((hbitD j).mp hbj).trans ((hbitD i).mp hbi).symm⟩
            · rw [if_pos hcj, if_neg hbj] at hLL
              omega
          · rw [if_neg hcj] at hLL
            have := hInv.wf j hj
            omega
        · rintro ⟨hmods, hbits⟩
          have hcj : j % 2 ^ (targetBucket hash t k).depth =
              IndexOf hash t k % 2 ^ (targetBucket hash t k).depth := hmods.trans hci
          have hbj : j &&& 1 <<< (targetBucket hash t k).depth = 0 :=
            (hbitD j).mpr (hbits.trans ((hbitD i).mp hbi))
          rw [if_pos hcj, if_pos hbj]
      · rw [hsb i hi, if_pos hci, if_neg hbi, hdirC i hi, if_pos hci, if_neg hbi,
          hdirC j hj]
        show _ ↔ j % 2 ^ ((targetBucket hash t k).depth + 1) =
          i % 2 ^ ((targetBucket hash t k).depth + 1)
        rw [mod_two_pow_succ_eq_iff]
        constructor
        · intro hLL
          by_cases hcj : j % 2 ^ (targetBucket hash t k).depth =
              IndexOf hash t k % 2 ^ (targetBucket hash t k).depth
          · by_cases hbj : j &&& 1 <<< (targetBucket hash t k).depth = 0
            · rw [if_pos hcj, if_pos hbj] at hLL
              omega
            · exact ⟨hcj.trans hci.symm, (hbitN j hbj).trans (hbitN i hbi).symm⟩
          · rw [if_neg hcj] at hLL
            have := hInv.wf j hj
            omega
        · rintro ⟨hmods, hbits⟩
          have hcj : j % 2 ^ (targetBucket hash t k).depth =
              IndexOf hash t k % 2 ^ (targetBucket hash t k).depth := hmods.trans hci
          have hbj : ¬j &&& 1 <<< (targetBucket hash t k).depth = 0 := by
            intro hzero
            have h0 := (hbitD j).mp hzero
            have h1 := hbitN i hbi
            omega
          rw [if_pos hcj, if_neg hbj]
    · rw [hsb i hi, if_neg hci, hdirC i hi, if_neg hci, hdirC j hj]
      by_cases hcj : j % 2 ^ (targetBucket hash t k).depth =
          IndexOf hash t k % 2 ^ (targetBucket hash t k).depth
      · rw [if_pos hcj]
        constructor
        · intro hLL
          have := hInv.wf i hi
          split_ifs at hLL <;> omega
        · intro hmods
          exfalso
          have heq : t.dir.getD j 0 = t.dir.getD i 0 := (hInv.share i hi j hj).mpr hmods
          exact hci ((hclass i hi).mp (heq.symm.trans ((hclass j hj).mpr hcj)))
      · rw [if_neg hcj]
        exact hInv.share i hi j hj
  · intro i hi' e he
    have hi : i < t.dir.length := hD ▸ hi'
    by_cases hci : i % 2 ^ (targetBucket hash t k).depth =
        IndexOf hash t k % 2 ^ (targetBucket hash t k).depth
    · by_cases hbi : i &&& 1 <<< (targetBucket hash t k).depth = 0
      · rw [hsb i hi, if_pos hci, if_pos hbi] at he ⊢
        obtain ⟨heB, hebit⟩ := List.mem_filter.mp he
        have hr := hInv.route _ hi0 e heB
        show hash e.1 % 2 ^ ((targetBucket hash t k).depth + 1) =
          i % 2 ^ ((targetBucket hash t k).depth + 1)
        rw [mod_two_pow_succ_eq_iff]
        exact ⟨hr.trans hci.symm,
          ((hbitD _).mp (of_decide_eq_true hebit)).trans ((hbitD i).mp hbi).symm⟩
      · rw [hsb i hi, if_pos hci, if_neg hbi] at he ⊢
        obtain ⟨heB, hebit⟩ := List.mem_filter.mp he
        have hr := hInv.route _ hi0 e heB
        show hash e.1 % 2 ^ ((targetBucket hash t k).depth + 1) =
          i % 2 ^ ((targetBucket hash t k).depth + 1)
        rw [mod_two_pow_succ_eq_iff]
        exact ⟨hr.trans hci.symm,
          (hbitN _ (of_decide_eq_true hebit)).trans (hbitN i hbi).symm⟩
    · rw [hsb i hi, if_neg hci] at he ⊢
      exact hInv.route i hi e he
  · intro j hj'
    have hj : j < t.dir.length := hD ▸ hj'
    rw [hsb j hj, hB]
    split_ifs
    · rfl
    · rfl
    · exact hInv.sizeEq j hj
  · intro j hj'
    have hj : j < t.dir.length := hD ▸ hj'
    rw [hsb j hj]
    split_ifs
    · exact le_trans (List.length_filter_le _ _) (le_trans hln (le_of_eq hsz))
    · exact le_trans (List.length_filter_le _ _) (le_trans hln (le_of_eq hsz))
    · exact hInv.lenLe j hj
  · intro j hj'
    have hj : j < t.dir.length := hD ▸ hj'
    rw [hsb j hj]
    split_ifs
    · exact List.Nodup.sublist
        (List.Sublist.map Prod.fst (List.filter_sublist _)) (hInv.nodup _ hi0)
    · exact List.Nodup.sublist
        (List.Sublist.map Prod.fst (List.filter_sublist _)) (hInv.nodup _ hi0)
    · exact hInv.nodup j hj
  · intro k2
    have hidx : IndexOf hash (splitStep hash t k) k2 = IndexOf hash t k2 := by
      unfold IndexOf
      rw [hA]
    have hi2 : IndexOf hash t k2 < t.dir.length := IndexOf_lt_dirLen hash hlen k2
    unfold Find targetBucket
    rw [hidx, hsb _ hi2]
    by_cases hc : IndexOf hash t k2 % 2 ^ (targetBucket hash t k).depth =
        IndexOf hash t k % 2 ^ (targetBucket hash t k).depth
    · have hBi2 : bucketAt t (IndexOf hash t k2) = targetBucket hash t k := by
        unfold targetBucket bucketAt
        rw [(hclass _ hi2).mpr hc]
        exact rfl
      rw [if_pos hc, hBi2]
      by_cases hbit : IndexOf hash t k2 &&& 1 <<< (targetBucket hash t k).depth = 0
      · have hbith : hash k2 &&& 1 <<< (targetBucket hash t k).depth = 0 := by
          rw [hbitD]
          rw [hbitD, IndexOf_eq_mod, mod_two_pow_div_mod_two _ hdlt] at hbit
          exact hbit
        rw [if_pos hbit]
        unfold Bucket.find?
        rw [find?_filter_compat]
        intro e hqe
        have he1 : e.1 = k2 := of_decide_eq_true hqe
        show decide (hash e.1 &&& 1 <<< (targetBucket hash t k).depth = 0) = true
        rw [he1]
        exact decide_eq_true hbith
      · have hbith : ¬hash k2 &&& 1 <<< (targetBucket hash t k).depth = 0 := by
          intro h0
          rw [hbitD, IndexOf_eq_mod, mod_two_pow_div_mod_two _ hdlt] at hbit
          rw [hbitD] at h0
          exact hbit h0
        rw [if_neg hbit]
        unfold Bucket.find?
        rw [find?_filter_compat]
        intro e hqe
        have he1 : e.1 = k2 := of_decide_eq_true hqe
        show decide (¬hash e.1 &&& 1 <<< (targetBucket hash t k).depth = 0) = true
        rw [he1]
        exact decide_eq_true hbith
    · rw [if_neg hc]
  · have hidx : IndexOf hash (splitStep hash t k) k = IndexOf hash t k := by
      unfold IndexOf
      rw [hA]
    show bucketAt (splitStep hash t k) (IndexOf hash (splitStep hash t k) k) = _
    rw [hidx, hsb _ hi0, if_pos rfl]
    have hiff : (IndexOf hash t k &&& 1 <<< (targetBucket hash t k).depth = 0) ↔
        (hash k &&& 1 <<< (targetBucket hash t k).depth = 0) := by
      rw [hbitD, hbitD, IndexOf_eq_mod, mod_two_pow_div_mod_two _ hdlt]
    by_cases hb : hash k &&& 1 <<< (targetBucket hash t k).depth = 0
    · rw [if_pos (hiff.mpr hb), if_pos hb]
    · rw [if_neg fun h0 => hb (hiff.mp h0), if_neg hb]

/-! ### One split iteration, both cases -/

theorem splitStep_main (t : Table K V) (k : K) (hInv : Inv hash t) :
    Inv hash (splitStep hash t k)
    ∧ t.globalDepth ≤ (splitStep hash t k).globalDepth
    ∧ (∀ k2, Find hash (splitStep hash t k) k2 = Find hash t k2)
    ∧ targetBucket hash (splitStep hash t k) k =
        (if hash k &&& 1 <<< (targetBucket hash t k).depth = 0
         then ⟨t.bucketSize, (targetBucket hash t k).depth + 1,
               (targetBucket hash t k).list.filter fun e =>
                 decide (hash e.1 &&& 1 <<< (targetBucket hash t k).depth = 0)⟩
         else ⟨t.bucketSize, (targetBucket hash t k).depth + 1,
               (targetBucket hash t k).list.filter fun e =>
                 decide (¬hash e.1 &&& 1 <<< (targetBucket hash t k).depth = 0)⟩) := by
  by_cases hd : (targetBucket hash t k).depth = t.globalDepth
  · rw [splitStep_eq_widen hash hInv.dirLen k hd]
    have hd2 : (targetBucket hash (widen t) k).depth ≠ (widen t).globalDepth := by
      rw [widen_targetBucket hash hInv.dirLen k, hd]
      show ¬t.globalDepth = t.globalDepth + 1
      omega
    obtain ⟨h1, h2, h3, h4⟩ :=
      splitStep_noWiden hash (widen t) k (inv_widen hash hInv) hd2
    refine ⟨h1, ?_, ?_, ?_⟩
    · rw [h2]
      exact Nat.le_succ _
    · intro k2
      rw [h3 k2, Find_widen hash hInv.dirLen k2]
    · rw [h4, widen_targetBucket hash hInv.dirLen k]
      exact rfl
  · obtain ⟨h1, h2, h3, h4⟩ := splitStep_noWiden hash t k hInv hd
    exact ⟨h1, le_of_eq h2.symm, h3, h4⟩

theorem splitStep_numBuckets (t : Table K V) (k : K) :
    (splitStep hash t k).numBuckets = t.numBuckets + 1 := by
  by_cases hd : (targetBucket hash t k).depth = t.globalDepth <;>
    simp [splitStep, hd, widen]

theorem splitStep_globalDepth_ge (t : Table K V) (k : K) :
    t.globalDepth ≤ (splitStep hash t k).globalDepth := by
  by_cases hd : (targetBucket hash t k).depth = t.globalDepth <;>
    simp [splitStep, hd, widen]

/-! ### The growth loop -/

theorem insertLoop_facts (fuel : Nat) (t t1 : Table K V) (k : K)
    (hInv : Inv hash t) (h : insertLoop hash fuel t k = some t1) :
    Inv hash t1
    ∧ (∀ k2, Find hash t1 k2 = Find hash t k2)
    ∧ (targetBucket hash t1 k).isFull = false
    ∧ t.globalDepth ≤ t1.globalDepth
    ∧ t.numBuckets ≤ t1.numBuckets := by
  induction fuel generalizing t with
  | zero => simp [insertLoop] at h
  | succ n ih =>
    rw [insertLoop] at h
    by_cases hf : (targetBucket hash t k).isFull = true
    · rw [if_pos hf] at h
      obtain ⟨hs1, hs2, hs3, hs4⟩ := splitStep_main hash t k hInv
      obtain ⟨h1, h2, h3, h4, h5⟩ := ih (splitStep hash t k) hs1 h
      have hnb := splitStep_numBuckets hash t k
      exact ⟨h1, fun k2 => (h2 k2).trans (hs3 k2), h3,
        le_trans hs2 h4, by omega⟩
    · rw [if_neg hf] at h
      obtain rfl : t = t1 := by injection h
      have hf' : (targetBucket hash t k).isFull = false := by
        cases hfl : (targetBucket hash t k).isFull
        · rfl
        · exact absurd hfl hf
      exact ⟨hInv, fun _ => rfl, hf', le_refl _, le_refl _⟩

/-! ### More list helpers -/

theorem updateFirst_map_fst (k : K) (v : V) (l : List (K × V)) :
    (updateFirst k v l).map Prod.fst = l.map Prod.fst := by
  induction l with
  | nil => rfl
  | cons e rest ih =>
    by_cases h : e.1 = k
    · simp [updateFirst, h]
    · simp [updateFirst, h, ih]

theorem updateFirst_length (k : K) (v : V) (l : List (K × V)) :
    (updateFirst k v l).length = l.length := by
  have h := congrArg List.length (updateFirst_map_fst k v l)
  simpa using h

theorem find?_updateFirst_self (k : K) (v : V) (l : List (K × V)) :
    (updateFirst k v l).find? (fun e => decide (e.1 = k)) =
      (l.find? fun e => decide (e.1 = k)).map fun e => (e.1, v) := by
  induction l with
  | nil => rfl
  | cons e rest ih =>
    by_cases h : e.1 = k
    · rw [show updateFirst k v (e :: rest) = (e.1, v) :: rest by simp [updateFirst, h]]
      rw [List.find?_cons_of_pos _ (by simpa using h),
        List.find?_cons_of_pos _ (by simpa using h)]
      simp
    · rw [show updateFirst k v (e :: rest) = e :: updateFirst k v rest by
        simp [updateFirst, h]]
      rw [List.find?_cons_of_neg _ (by simpa using h),
        List.find?_cons_of_neg _ (by simpa using h), ih]

theorem find?_updateFirst_ne (k : K) (v : V) (k2 : K) (hne : k2 ≠ k)
    (l : List (K × V)) :
    (updateFirst k v l).find? (fun e => decide (e.1 = k2)) =
      l.find? fun e => decide (e.1 = k2) := by
  induction l with
  | nil => rfl
  | cons e rest ih =>
    by_cases h : e.1 = k
    · have hne2 : ¬e.1 = k2 := fun hcc => hne (hcc ▸ h)
      rw [show updateFirst k v (e :: rest) = (e.1, v) :: rest by simp [updateFirst, h]]
      rw [List.find?_cons_of_neg _ (by simpa using hne2),
        List.find?_cons_of_neg _ (by simpa using hne2)]
    · rw [show updateFirst k v (e :: rest) = e :: updateFirst k v rest by
        simp [updateFirst, h]]
      by_cases h2 : e.1 = k2
      · rw [List.find?_cons_of_pos _ (by simpa using h2),
          List.find?_cons_of_pos _ (by simpa using h2)]
      · rw [List.find?_cons_of_neg _ (by simpa using h2),
          List.find?_cons_of_neg _ (by simpa using h2), ih]

theorem find?_append_some {α : Type} {l1 l2 : List α} {q : α → Bool} {x : α}
    (h : l1.find? q = some x) : (l1 ++ l2).find? q = some x := by
  induction l1 with
  | nil => simp [List.find?] at h
  | cons a r ih =>
    cases hq : q a
    · rw [List.find?_cons_of_neg _ (by simp [hq])] at h
      rw [List.cons_append, List.find?_cons_of_neg _ (by simp [hq])]
      exact ih h
    · rw [List.find?_cons_of_pos _ hq] at h
      rw [List.cons_append, List.find?_cons_of_pos _ hq]
      exact h

theorem find?_append_none {α : Type} {l1 l2 : List α} {q : α → Bool}
    (h : l1.find? q = none) : (l1 ++ l2).find? q = l2.find? q := by
  induction l1 with
  | nil => rfl
  | cons a r ih =>
    cases hq : q a
    · rw [List.find?_cons_of_neg _ (by simp [hq])] at h
      rw [List.cons_append, List.find?_cons_of_neg _ (by simp [hq])]
      exact ih h
    · rw [List.find?_cons_of_pos _ hq] at h
      cases h

theorem nodup_keys_eq {l : List (K × V)} (h : (l.map Prod.fst).Nodup)
    {x y : K × V} (hx : x ∈ l) (hy : y ∈ l) (hxy : x.1 = y.1) : x = y := by
  induction l with
  | nil => simp at hx
  | cons a rest ih =>
    simp only [List.map_cons, List.nodup_cons] at h
    obtain ⟨hna, hnr⟩ := h
    rcases List.mem_cons.mp hx with rfl | hx'
    · rcases List.mem_cons.mp hy with rfl | hy'
      · rfl
      · exact absurd (List.mem_map.mpr ⟨y, hy', hxy.symm⟩) hna
    · rcases List.mem_cons.mp hy with rfl | hy'
      · exact absurd (List.mem_map.mpr ⟨x, hx', hxy⟩) hna
      · exact ih hnr hx' hy'

/-! ### Replacing the routed bucket in the heap -/

theorem set_target_bucketAt (t : Table K V) (k : K) (hInv : Inv hash t)
    (nb : Bucket K V) :
    ∀ j, j < t.dir.length →
      bucketAt { t with buckets := t.buckets.set (targetId hash t k) nb } j =
        if t.dir.getD j 0 = targetId hash t k then nb else bucketAt t j := by
  intro j hj
  have hwf : targetId hash t k < t.buckets.length :=
    hInv.wf _ (IndexOf_lt_dirLen hash hInv.dirLen k)
  show (t.buckets.set (targetId hash t k) nb).getD (t.dir.getD j 0) ⟨0, 0, []⟩ = _
  by_cases hc : t.dir.getD j 0 = targetId hash t k
  · rw [if_pos hc, hc, getD_set_self _ _ _ _ hwf]
  · rw [if_neg hc, getD_set_ne _ _ _ _ _ (Ne.symm hc)]
    rfl

theorem bucketAt_eq_target_of (t : Table K V) (k : K) {j : Nat}
    (hc : t.dir.getD j 0 = targetId hash t k) :
    bucketAt t j = targetBucket hash t k := by
  show t.buckets.getD (t.dir.getD j 0) ⟨0, 0, []⟩ = _
  rw [hc]
  exact rfl

theorem Find_eq_target_of (t : Table K V) (k k2 : K)
    (hc : t.dir.getD (IndexOf hash t k2) 0 = targetId hash t k) :
    Find hash t k2 = (targetBucket hash t k).find? k2 := by
  unfold Find
  rw [show targetBucket hash t k2 = bucketAt t (IndexOf hash t k2) from rfl,
    bucketAt_eq_target_of hash t k hc]

theorem set_target_inv (t : Table K V) (k : K) (hInv : Inv hash t)
    (nb : Bucket K V)
    (hdep : nb.depth = (targetBucket hash t k).depth)
    (hsize : nb.size = (targetBucket hash t k).size)
    (hlen2 : nb.list.length ≤ nb.size)
    (hroute : ∀ e ∈ nb.list,
      hash e.1 % 2 ^ nb.depth = IndexOf hash t k % 2 ^ nb.depth)
    (hnd : (nb.list.map Prod.fst).Nodup) :
    Inv hash { t with buckets := t.buckets.set (targetId hash t k) nb } := by
  have hlen := hInv.dirLen
  have hi0 : IndexOf hash t k < t.dir.length := IndexOf_lt_dirLen hash hlen k
  have hbAt := set_target_bucketAt hash t k hInv nb
  constructor
  · exact hInv.dirLen
  · intro j hj
    show t.dir.getD j 0 < (t.buckets.set (targetId hash t k) nb).length
    rw [List.length_set]
    exact hInv.wf j hj
  · intro j hj
    rw [hbAt j hj]
    split_ifs with hc
    · rw [hdep]
      exact hInv.depthLe _ hi0
    · exact hInv.depthLe j hj
  · intro i hi j hj
    rw [hbAt i hi]
    split_ifs with hc
    · rw [hdep]
      have hBi := bucketAt_eq_target_of hash t k hc
      have hsh := hInv.share i hi j hj
      rw [hBi] at hsh
      exact hsh
    · exact hInv.share i hi j hj
  · intro i hi e he
    by_cases hc : t.dir.getD i 0 = targetId hash t k
    · rw [hbAt i hi, if_pos hc] at he ⊢
      have h1 := hroute e he
      have h2 : i % 2 ^ (targetBucket hash t k).depth =
          IndexOf hash t k % 2 ^ (targetBucket hash t k).depth :=
        (hInv.share _ hi0 i hi).mp hc
      rw [hdep] at h1 ⊢
      exact h1.trans h2.symm
    · rw [hbAt i hi, if_neg hc] at he ⊢
      exact hInv.route i hi e he
  · intro j hj
    rw [hbAt j hj]
    split_ifs with hc
    · rw [hsize]
      exact hInv.sizeEq _ hi0
    · exact hInv.sizeEq j hj
  · intro j hj
    rw [hbAt j hj]
    split_ifs with hc
    · exact hlen2
    · exact hInv.lenLe j hj
  · intro j hj
    rw [hbAt j hj]
    split_ifs with hc
    · exact hnd
    · exact hInv.nodup j hj

theorem set_target_find (t : Table K V) (k : K) (hInv : Inv hash t)
    (nb : Bucket K V) (k2 : K) :
    Find hash { t with buckets := t.buckets.set (targetId hash t k) nb } k2 =
      if t.dir.getD (IndexOf hash t k2) 0 = targetId hash t k
      then nb.find? k2 else Find hash t k2 := by
  have hi2 : IndexOf hash t k2 < t.dir.length := IndexOf_lt_dirLen hash hInv.dirLen k2
  have hbAt := set_target_bucketAt hash t k hInv nb
  show (bucketAt { t with buckets := t.buckets.set (targetId hash t k) nb }
      (IndexOf hash t k2)).find? k2 = _
  rw [hbAt _ hi2]
  split_ifs with hc
  · rfl
  · rfl

/-! ### Facts about the post-loop upsert -/

theorem upsert_facts (t : Table K V) (k : K) (v : V) (hInv : Inv hash t)
    (hnf : (targetBucket hash t k).isFull = false) :
    Inv hash (upsert hash t k v)
    ∧ Find hash (upsert hash t k v) k = some v
    ∧ (∀ k2, k2 ≠ k → Find hash (upsert hash t k v) k2 = Find hash t k2)
    ∧ (upsert hash t k v).globalDepth = t.globalDepth
    ∧ (upsert hash t k v).numBuckets = t.numBuckets
    ∧ (upsert hash t k v).dir = t.dir
    ∧ (upsert hash t k v).bucketSize = t.bucketSize := by
  have hlen := hInv.dirLen
  have hi0 : IndexOf hash t k < t.dir.length := IndexOf_lt_dirLen hash hlen k
  have hdle : (targetBucket hash t k).depth ≤ t.globalDepth := hInv.depthLe _ hi0
  have hi0mod : hash k % 2 ^ (targetBucket hash t k).depth =
      IndexOf hash t k % 2 ^ (targetBucket hash t k).depth := by
    rw [IndexOf_eq_mod, mod_mod_two_pow_of_le _ hdle]
  rcases hfind : (targetBucket hash t k).list.find? (fun e => decide (e.1 = k))
    with _ | p
  · -- key absent in the routed bucket: append
    have habs : ∀ x ∈ (targetBucket hash t k).list, ¬x.1 = k := by
      intro x hx
      have := List.find?_eq_none.mp hfind x hx
      simpa using this
    have hup : upsert hash t k v =
        { t with buckets := (t.buckets.set (targetId hash t k)
            ({ size := (targetBucket hash t k).size,
               depth := (targetBucket hash t k).depth,
               list := (targetBucket hash t k).list ++ [(k, v)] } : Bucket K V)) } := by
      simp only [upsert, hfind]
      simp [Bucket.insert, hnf]
    have hlt : (targetBucket hash t k).list.length < (targetBucket hash t k).size := by
      have h1 : (targetBucket hash t k).list.length ≤ (targetBucket hash t k).size :=
        hInv.lenLe _ hi0
      have h2 : ¬(targetBucket hash t k).list.length = (targetBucket hash t k).size := by
        simpa [Bucket.isFull] using hnf
      omega
    rw [hup]
    refine ⟨?_, ?_, ?_, rfl, rfl, rfl, rfl⟩
    · refine set_target_inv hash t k hInv _ rfl rfl ?_ ?_ ?_
      · simpa using hlt
      · intro e he
        rcases List.mem_append.mp he with h | h
        · exact hInv.route _ hi0 e h
        · have he2 : e = (k, v) := by simpa using h
          rw [he2]
          exact hi0mod
      · rw [List.map_append]
        rw [List.nodup_append]
        refine ⟨hInv.nodup _ hi0, by simp, ?_⟩
        intro a ha hb
        have hak : a = k := by simpa using hb
        obtain ⟨x, hx, hx1⟩ := List.mem_map.mp ha
        exact habs x hx (hak ▸ hx1)
    · have hcc : t.dir.getD (IndexOf hash t k) 0 = targetId hash t k := rfl
      rw [set_target_find hash t k hInv _ k, if_pos hcc]
      unfold Bucket.find?
      show ((((targetBucket hash t k).list ++ [(k, v)]).find?
        fun e => decide (e.1 = k)).map Prod.snd) = some v
      rw [find?_append_none hfind]
      simp [List.find?]
    · intro k2 hk2
      rw [set_target_find hash t k hInv _ k2]
      split_ifs with hc
      · rw [Find_eq_target_of hash t k k2 hc]
        unfold Bucket.find?
        show ((((targetBucket hash t k).list ++ [(k, v)]).find?
          fun e => decide (e.1 = k2)).map Prod.snd) = _
        rcases h2 : (targetBucket hash t k).list.find? (fun e => decide (e.1 = k2))
          with _ | x
        · rw [find?_append_none h2, h2]
          simp [List.find?, hk2.symm]
        · rw [find?_append_some h2, h2]
      · rfl
  · -- key present: in-place value update
    have hup : upsert hash t k v =
        { t with buckets := (t.buckets.set (targetId hash t k)
            ({ size := (targetBucket hash t k).size,
               depth := (targetBucket hash t k).depth,
               list := updateFirst k v (targetBucket hash t k).list } : Bucket K V)) } := by
      simp only [upsert, hfind]
    rw [hup]
    refine ⟨?_, ?_, ?_, rfl, rfl, rfl, rfl⟩
    · refine set_target_inv hash t k hInv _ rfl rfl ?_ ?_ ?_
      · show (updateFirst k v (targetBucket hash t k).list).length ≤
          (targetBucket hash t k).size
        rw [updateFirst_length]
        exact hInv.lenLe _ hi0
      · intro e he
        have hkey : e.1 ∈ ((targetBucket hash t k).list.map Prod.fst) := by
          rw [← updateFirst_map_fst k v]
          exact List.mem_map_of_mem Prod.fst he
        obtain ⟨x, hx, hx1⟩ := List.mem_map.mp hkey
        show hash e.1 % 2 ^ (targetBucket hash t k).depth =
          IndexOf hash t k % 2 ^ (targetBucket hash t k).depth
        rw [← hx1]
        exact hInv.route _ hi0 x hx
      · show ((updateFirst k v (targetBucket hash t k).list).map Prod.fst).Nodup
        rw [updateFirst_map_fst]
        exact hInv.nodup _ hi0
    · have hcc : t.dir.getD (IndexOf hash t k) 0 = targetId hash t k := rfl
      rw [set_target_find hash t k hInv _ k, if_pos hcc]
      unfold Bucket.find?
      show (((updateFirst k v (targetBucket hash t k).list).find?
        fun e => decide (e.1 = k)).map Prod.snd) = some v
      rw [find?_updateFirst_self, hfind]
      rfl
    · intro k2 hk2
      rw [set_target_find hash t k hInv _ k2]
      split_ifs with hc
      · rw [Find_eq_target_of hash t k k2 hc]
        unfold Bucket.find?
        show (((updateFirst k v (targetBucket hash t k).list).find?
          fun e => decide (e.1 = k2)).map Prod.snd) = _
        rw [find?_updateFirst_ne k v k2 hk2]
      · rfl

/-! ### Facts about complete Insert and Remove calls -/

theorem Insert_facts (fuel : Nat) (t t' : Table K V) (k : K) (v : V)
    (hInv : Inv hash t) (h : Insert hash fuel t k v = some t') :
    Inv hash t'
    ∧ Find hash t' k = some v
    ∧ (∀ k2, k2 ≠ k → Find hash t' k2 = Find hash t k2)
    ∧ t.globalDepth ≤ t'.globalDepth
    ∧ t.numBuckets ≤ t'.numBuckets := by
  unfold Insert at h
  rcases hloop : insertLoop hash fuel t k with _ | t1
  · rw [hloop] at h
    simp at h
  · rw [hloop] at h
    simp only [Option.map, Option.some.injEq] at h
    obtain ⟨h1, h2, h3, h4, h5⟩ := insertLoop_facts hash fuel t t1 k hInv hloop
    obtain ⟨u1, u2, u3, u4, u5, u6, u7⟩ := upsert_facts hash t1 k v h1 h3
    subst h
    exact ⟨u1, u2, fun k2 hk2 => (u3 k2 hk2).trans (h2 k2),
      by rw [u4] at *; exact h4, by rw [u5]; exact h5⟩

theorem Remove_facts (t : Table K V) (k : K) (hInv : Inv hash t) :
    Inv hash (Remove hash t k).2
    ∧ (∀ k2, k2 ≠ k → Find hash (Remove hash t k).2 k2 = Find hash t k2)
    ∧ (∀ v, Find hash t k = some v →
        (Remove hash t k).1 = true ∧ Find hash (Remove hash t k).2 k = none)
    ∧ (Remove hash t k).2.globalDepth = t.globalDepth
    ∧ (Remove hash t k).2.numBuckets = t.numBuckets
    ∧ (Remove hash t k).2.bucketSize = t.bucketSize := by
  have hlen := hInv.dirLen
  have hi0 : IndexOf hash t k < t.dir.length := IndexOf_lt_dirLen hash hlen k
  rcases hfind : (targetBucket hash t k).list.find? (fun e => decide (e.1 = k))
    with _ | p
  · have hFnone : Find hash t k = none := by
      unfold Find Bucket.find?
      rw [hfind]
      rfl
    have hrm := Remove_absent hash t k hFnone
    rw [hrm]
    refine ⟨hInv, fun _ _ => rfl, ?_, rfl, rfl, rfl⟩
    intro v hv
    rw [hFnone] at hv
    cases hv
  · have hp1 : p.1 = k := by
      have := List.find?_some hfind
      simpa using this
    have hpmem : p ∈ (targetBucket hash t k).list := List.mem_of_find?_eq_some hfind
    have hrm : Remove hash t k =
        (true, { t with buckets := (t.buckets.set (targetId hash t k)
            ({ size := (targetBucket hash t k).size,
               depth := (targetBucket hash t k).depth,
               list := (targetBucket hash t k).list.filter fun e =>
                 decide (e ≠ p) } : Bucket K V)) }) := by
      simp only [Remove, Bucket.remove, hfind]
    rw [hrm]
    refine ⟨?_, ?_, ?_, rfl, rfl, rfl⟩
    · refine set_target_inv hash t k hInv _ rfl rfl ?_ ?_ ?_
      · exact le_trans (List.length_filter_le _ _) (hInv.lenLe _ hi0)
      · intro e he
        exact hInv.route _ hi0 e (List.mem_of_mem_filter he)
      · exact List.Nodup.sublist
          (List.Sublist.map Prod.fst (List.filter_sublist _)) (hInv.nodup _ hi0)
    · intro k2 hk2
      rw [set_target_find hash t k hInv _ k2]
      split_ifs with hc
      · rw [Find_eq_target_of hash t k k2 hc]
        unfold Bucket.find?
        show ((((targetBucket hash t k).list.filter fun e => decide (e ≠ p)).find?
          fun e => decide (e.1 = k2)).map Prod.snd) = _
        rw [find?_filter_compat]
        intro e hqe
        have he1 : e.1 = k2 := of_decide_eq_true hqe
        have hep : e ≠ p := fun hcc => hk2 (by rw [← he1, hcc, hp1])
        exact decide_eq_true hep
      · rfl
    · intro v hv
      refine ⟨rfl, ?_⟩
      have hcc : t.dir.getD (IndexOf hash t k) 0 = targetId hash t k := rfl
      rw [set_target_find hash t k hInv _ k, if_pos hcc]
      unfold Bucket.find?
      show ((((targetBucket hash t k).list.filter fun e => decide (e ≠ p)).find?
        fun e => decide (e.1 = k)).map Prod.snd) = none
      rw [List.find?_eq_none.mpr]
      · rfl
      · intro x hx
        obtain ⟨hxmem, hxne⟩ := List.mem_filter.mp hx
        intro hxk
        have hx1 : x.1 = k := of_decide_eq_true hxk
        have : x = p := nodup_keys_eq (hInv.nodup _ hi0) hxmem hpmem (hx1.trans hp1.symm)
        exact (of_decide_eq_true hxne) this

/-! ### Reachability, stability and monotonicity -/

theorem inv_reachable {t : Table K V} (h : Reachable hash t) : Inv hash t := by
  induction h with
  | init cap hcap => exact inv_mkTable hash cap
  | insStep t fuel k v t' hr hins ih => exact (Insert_facts hash fuel t t' k v ih hins).1
  | remStep t k hr ih => exact (Remove_facts hash t k ih).1

theorem stable_op (fuel : Nat) (t t' : Table K V) (k : K) (v : V) (op : Op K V)
    (hInv : Inv hash t) (hfind : Find hash t k = some v) (hok : okOp k v op)
    (happ : applyOp hash fuel t op = some t') :
    Inv hash t' ∧ Find hash t' k = some v := by
  cases op with
  | ins k2 v2 =>
    simp only [applyOp] at happ
    obtain ⟨h1, h2, h3, _, _⟩ := Insert_facts hash fuel t t' k2 v2 hInv happ
    by_cases hkk : k2 = k
    · subst hkk
      rcases hok with hne | hveq
      · exact absurd rfl hne
      · subst hveq
        exact ⟨h1, h2⟩
    · exact ⟨h1, (h3 k fun hh => hkk hh.symm).trans hfind⟩
  | rem k2 =>
    simp only [applyOp, Option.some.injEq] at happ
    subst happ
    obtain ⟨h1, h2, _, _⟩ := Remove_facts hash t k2 hInv
    exact ⟨h1, (h2 k (Ne.symm hok)).trans hfind⟩
  | qry k2 =>
    simp only [applyOp, Option.some.injEq] at happ
    subst happ
    exact ⟨hInv, hfind⟩

theorem stable_ops (fuel : Nat) (ops : List (Op K V)) (t t' : Table K V)
    (k : K) (v : V) (hInv : Inv hash t) (hfind : Find hash t k = some v)
    (hok : ∀ op ∈ ops, okOp k v op)
    (happ : applyOps hash fuel ops t = some t') :
    Inv hash t' ∧ Find hash t' k = some v := by
  induction ops generalizing t with
  | nil =>
    simp only [applyOps, Option.some.injEq] at happ
    subst happ
    exact ⟨hInv, hfind⟩
  | cons op rest ih =>
    simp only [applyOps] at happ
    rcases hstep : applyOp hash fuel t op with _ | t1
    · rw [hstep] at happ
      cases happ
    · rw [hstep] at happ
      rw [show (some t1).bind (applyOps hash fuel rest) =
            applyOps hash fuel rest t1 from rfl] at happ
      obtain ⟨h1, h2⟩ :=
        stable_op hash fuel t t1 k v op hInv hfind (hok op (by simp)) hstep
      exact ih t1 h1 h2 (fun o ho => hok o (by simp [ho])) happ

theorem splitStep_bucketSize (t : Table K V) (k : K) :
    (splitStep hash t k).bucketSize = t.bucketSize := by
  by_cases hd : (targetBucket hash t k).depth = t.globalDepth <;>
    simp [splitStep, hd, widen]

theorem insertLoop_mono (fuel : Nat) (t t1 : Table K V) (k : K)
    (h : insertLoop hash fuel t k = some t1) :
    t.globalDepth ≤ t1.globalDepth ∧ t.numBuckets ≤ t1.numBuckets := by
  induction fuel generalizing t with
  | zero => cases h
  | succ n ih =>
    rw [insertLoop] at h
    by_cases hf : (targetBucket hash t k).isFull = true
    · rw [if_pos hf] at h
      obtain ⟨h1, h2⟩ := ih (splitStep hash t k) h
      have h3 := splitStep_globalDepth_ge hash t k
      have h4 := splitStep_numBuckets hash t k
      exact ⟨le_trans h3 h1, by omega⟩
    · rw [if_neg hf] at h
      obtain rfl : t = t1 := by injection h
      exact ⟨le_refl _, le_refl _⟩

theorem upsert_projections (t : Table K V) (k : K) (v : V) :
    (upsert hash t k v).globalDepth = t.globalDepth
    ∧ (upsert hash t k v).numBuckets = t.numBuckets
    ∧ (upsert hash t k v).dir = t.dir := by
  rcases hfind : (targetBucket hash t k).list.find? (fun e => decide (e.1 = k))
    with _ | p <;> simp [upsert, hfind]

theorem Insert_mono (fuel : Nat) (t t' : Table K V) (k : K) (v : V)
    (h : Insert hash fuel t k v = some t') :
    t.globalDepth ≤ t'.globalDepth ∧ t.numBuckets ≤ t'.numBuckets := by
  unfold Insert at h
  rcases hloop : insertLoop hash fuel t k with _ | t1
  · rw [hloop] at h
    cases h
  · rw [hloop] at h
    simp only [Option.map, Option.some.injEq] at h
    subst h
    obtain ⟨h1, h2⟩ := insertLoop_mono hash fuel t t1 k hloop
    obtain ⟨u1, u2, _⟩ := upsert_projections hash t1 k v
    exact ⟨u1 ▸ h1, u2 ▸ h2⟩

theorem Remove_projections (t : Table K V) (k : K) :
    (Remove hash t k).2.globalDepth = t.globalDepth
    ∧ (Remove hash t k).2.numBuckets = t.numBuckets
    ∧ (Remove hash t k).2.dir = t.dir :=
  ⟨rfl, rfl, rfl⟩

theorem applyOps_mono (fuel : Nat) (ops : List (Op K V)) (t t' : Table K V)
    (h : applyOps hash fuel ops t = some t') :
    t.globalDepth ≤ t'.globalDepth ∧ t.numBuckets ≤ t'.numBuckets := by
  induction ops generalizing t with
  | nil =>
    simp only [applyOps, Option.some.injEq] at h
    subst h
    exact ⟨le_refl _, le_refl _⟩
  | cons op rest ih =>
    simp only [applyOps] at h
    rcases hstep : applyOp hash fuel t op with _ | t1
    · rw [hstep] at h
      cases h
    · rw [hstep] at h
      rw [show (some t1).bind (applyOps hash fuel rest) =
            applyOps hash fuel rest t1 from rfl] at h
      obtain ⟨h1, h2⟩ := ih t1 h
      have hone : t.globalDepth ≤ t1.globalDepth ∧ t.numBuckets ≤ t1.numBuckets := by
        cases op with
        | ins k2 v2 => exact Insert_mono hash fuel t t1 k2 v2 hstep
        | rem k2 =>
          obtain rfl : (Remove hash t k2).2 = t1 := by
            simpa [applyOp] using hstep
          exact ⟨le_refl _, le_refl _⟩
        | qry k2 =>
          obtain rfl : t = t1 := by simpa [applyOp] using hstep
          exact ⟨le_refl _, le_refl _⟩
      exact ⟨le_trans hone.1 h1, le_trans hone.2 h2⟩

/-- If every state satisfying `P` has a full target bucket and `P` survives
one split iteration, the growth loop never exits: the C++ `while` loop runs
forever. -/
theorem insertLoop_diverges (k : K) (P : Table K V → Prop)
    (hstep : ∀ t, P t →
      (targetBucket hash t k).isFull = true ∧ P (splitStep hash t k)) :
    ∀ fuel t, P t → insertLoop hash fuel t k = none := by
  intro fuel
  induction fuel with
  | zero => intro t _; rfl
  | succ n ih =>
    intro t hP
    obtain ⟨hfull, hP2⟩ := hstep t hP
    rw [insertLoop, if_pos hfull]
    exact ih _ hP2

theorem Insert_diverges (k : K) (v : V) (P : Table K V → Prop)
    (hstep : ∀ t, P t →
      (targetBucket hash t k).isFull = true ∧ P (splitStep hash t k)) :
    ∀ fuel t, P t → Insert hash fuel t k v = none := by
  intro fuel t hP
  unfold Insert
  rw [insertLoop_diverges hash k P hstep fuel t hP]
  rfl

/-! ### Counting slots that share a bucket -/

theorem card_filter_mod (g d r : Nat) (hd : d ≤ g) (hr : r < 2 ^ d) :
    ((Finset.range (2 ^ g)).filter fun j => j % 2 ^ d = r).card = 2 ^ (g - d) := by
  have himg : (Finset.range (2 ^ g)).filter (fun j => j % 2 ^ d = r) =
      (Finset.range (2 ^ (g - d))).image fun q => r + 2 ^ d * q := by
    ext x
    simp only [Finset.mem_filter, Finset.mem_range, Finset.mem_image]
    constructor
    · rintro ⟨hx, hmod⟩
      refine ⟨x / 2 ^ d, ?_, ?_⟩
      · rw [Nat.div_lt_iff_lt_mul (two_pow_pos d)]
        calc x < 2 ^ g := hx
        _ = 2 ^ (g - d) * 2 ^ d := by
          rw [← pow_add]
          congr 1
          omega
      · rw [← hmod, Nat.mod_add_div]
    · rintro ⟨q, hq, rfl⟩
      constructor
      · calc r + 2 ^ d * q < 2 ^ d + 2 ^ d * q := by omega
        _ = 2 ^ d * (q + 1) := by ring
        _ ≤ 2 ^ d * 2 ^ (g - d) := Nat.mul_le_mul_left _ hq
        _ = 2 ^ g := by
          rw [← pow_add]
          congr 1
          omega
      · rw [Nat.add_mul_mod_self_left, Nat.mod_eq_of_lt hr]
  rw [himg, Finset.card_image_of_injective _ ?inj, Finset.card_range]
  case inj =>
    intro a b hab
    simp only at hab
    exact Nat.eq_of_mul_eq_mul_left (two_pow_pos d) (by omega)

/-! ### The claims -/

/-- C1: round trip.  From any reachable state of a table constructed with
capacity at least 1, once Insert(k, v) has completed, Find(k) returns
(v, true) — here `some v` — and keeps doing so after any further completed
sequence of Insert/Find/Remove operations that neither removes k nor
inserts k with a different value. -/
theorem C1_round_trip (t t1 t2 : Table K V) (k : K) (v : V) (fuel fuel2 : Nat)
    (ops : List (Op K V)) (hR : Reachable hash t)
    (hIns : Insert hash fuel t k v = some t1)
    (hok : ∀ op ∈ ops, okOp k v op)
    (hSeq : applyOps hash fuel2 ops t1 = some t2) :
    Find hash t1 k = some v ∧ Find hash t2 k = some v := by
  have hInv := inv_reachable hash hR
  obtain ⟨h1, h2, _, _, _⟩ := Insert_facts hash fuel t t1 k v hInv hIns
  exact ⟨h2, (stable_ops hash fuel2 ops t1 t2 k v h1 h2 hok hSeq).2⟩

/-- C1 witness: capacity 2, Insert(0, 5), then Insert(1, 7), Remove(1),
Find(0): key 0 still maps to 5 immediately after its insert and at the end. -/
theorem C1_round_trip_witness :
    Find (id : Nat → Nat)
        (⟨2, 0, 1, [0], [⟨2, 0, [(0, 5)]⟩]⟩ : Table Nat Nat) 0 = some 5
    ∧ Find (id : Nat → Nat)
        (⟨2, 0, 1, [0], [⟨2, 0, [(0, 5)]⟩]⟩ : Table Nat Nat) 0 = some 5 := by
  refine C1_round_trip id (mkTable 2) _ _ 0 5 1 3
    [Op.ins 1 7, Op.rem 1, Op.qry 0] (Reachable.init 2 (by decide))
    (by decide) ?_ (by decide)
  intro op hop
  simp only [List.mem_cons, List.not_mem_nil, or_false] at hop
  rcases hop with rfl | rfl | rfl
  · exact Or.inl (by decide)
  · exact (by decide : (1 : Nat) ≠ 0)
  · exact trivial

/-- C2: one iteration of the growth loop on a full target bucket: the
directory is doubled (slot i + old_length copying slot i) exactly when the
bucket has maximal depth, the split bit is the old local depth bit, the two
fresh buckets receive the entries partitioned by `hash(key) & splitBit`,
every slot that referenced the old bucket is re-pointed by its index bit,
and the bucket count rises by exactly 1. -/
theorem C2_split_step (t : Table K V) (k : K)
    (hlen : t.dir.length = 2 ^ t.globalDepth)
    (hsz : (targetBucket hash t k).size = t.bucketSize)
    (hFull : (targetBucket hash t k).isFull = true) :
    (splitStep hash t k).globalDepth =
      (if (targetBucket hash t k).depth = t.globalDepth
       then t.globalDepth + 1 else t.globalDepth)
    ∧ (splitStep hash t k).numBuckets = t.numBuckets + 1
    ∧ (splitStep hash t k).buckets.getD t.buckets.length ⟨0, 0, []⟩ =
        ⟨t.bucketSize, (targetBucket hash t k).depth + 1,
         (targetBucket hash t k).list.filter fun e =>
           decide (hash e.1 &&& 1 <<< (targetBucket hash t k).depth = 0)⟩
    ∧ (splitStep hash t k).buckets.getD (t.buckets.length + 1) ⟨0, 0, []⟩ =
        ⟨t.bucketSize, (targetBucket hash t k).depth + 1,
         (targetBucket hash t k).list.filter fun e =>
           decide (¬hash e.1 &&& 1 <<< (targetBucket hash t k).depth = 0)⟩
    ∧ ((targetBucket hash t k).depth = t.globalDepth →
        ∀ i, i < t.dir.length →
          (t.dir ++ t.dir).getD (i + t.dir.length) 0 = t.dir.getD i 0)
    ∧ (∀ j, j < (if (targetBucket hash t k).depth = t.globalDepth
          then t.dir ++ t.dir else t.dir).length →
        (splitStep hash t k).dir.getD j 0 =
          (if (if (targetBucket hash t k).depth = t.globalDepth
               then t.dir ++ t.dir else t.dir).getD j 0 = targetId hash t k
           then (if j &&& 1 <<< (targetBucket hash t k).depth = 0
                 then t.buckets.length else t.buckets.length + 1)
           else (if (targetBucket hash t k).depth = t.globalDepth
                 then t.dir ++ t.dir else t.dir).getD j 0))
    ∧ (splitStep hash t k).dir.length =
        (if (targetBucket hash t k).depth = t.globalDepth
         then 2 * t.dir.length else t.dir.length) := by
  have hln : (targetBucket hash t k).list.length ≤ (targetBucket hash t k).size :=
    le_of_eq (by simpa [Bucket.isFull] using hFull)
  by_cases hd : (targetBucket hash t k).depth = t.globalDepth
  · rw [splitStep_eq_widen hash hlen k hd]
    have hw := widen_targetBucket hash hlen k
    have hd2 : (targetBucket hash (widen t) k).depth ≠ (widen t).globalDepth := by
      rw [hw, hd]
      show ¬t.globalDepth = t.globalDepth + 1
      omega
    have hsz2 : (targetBucket hash (widen t) k).size = (widen t).bucketSize := by
      rw [hw]
      exact hsz
    have hln2 : (targetBucket hash (widen t) k).list.length ≤
        (targetBucket hash (widen t) k).size := by
      rw [hw]
      exact hln
    obtain ⟨hA, hB, hC, hD, hE, hF, hG, hH, hI⟩ :=
      splitStep_facts hash (widen t) k hsz2 hln2 hd2
    refine ⟨?_, hC, ?_, ?_, ?_, ?_, ?_⟩
    · rw [if_pos hd, hA]
      rfl
    · rw [← hw]
      exact hG
    · rw [← hw]
      exact hH
    · intro _ i hi
      rw [getD_append_right _ _ _ _ (by omega)]
      simp
    · simp only [if_pos hd]
      intro j hj
      have hF2 := hF j hj
      rw [widen_targetId hash hlen k] at hF2
      rw [← hw]
      exact hF2
    · rw [if_pos hd, hD, widen_dir_length]
  · obtain ⟨hA, hB, hC, hD, hE, hF, hG, hH, hI⟩ :=
      splitStep_facts hash t k hsz hln hd
    refine ⟨by rw [hA, if_neg hd], hC, hG, hH,
      fun hdd => absurd hdd hd, ?_, by rw [hD, if_neg hd]⟩
    simp only [if_neg hd]
    exact hF

/-- C2 witness: a full capacity-1 bucket at maximal depth splits with the
directory doubling. -/
theorem C2_split_step_witness :
    (1 : Nat) = 2 ^ (0 : Nat)
    ∧ ((splitStep (id : Nat → Nat)
        (⟨1, 0, 1, [0], [⟨1, 0, [(0, 0)]⟩]⟩ : Table Nat Nat) 1).globalDepth = 1
      ∧ (splitStep (id : Nat → Nat)
        (⟨1, 0, 1, [0], [⟨1, 0, [(0, 0)]⟩]⟩ : Table Nat Nat) 1).numBuckets = 2) := by
  have h := C2_split_step id (⟨1, 0, 1, [0], [⟨1, 0, [(0, 0)]⟩]⟩ : Table Nat Nat) 1
    (by decide) (by decide) (by decide)
  exact ⟨by decide, by rw [h.1]; decide, by rw [h.2.1]⟩

/-- C3: in every reachable state — after construction and after every
completed Insert, Find and Remove — the directory length is exactly
2 to the global depth. -/
theorem C3_directory_size (t : Table K V) (hR : Reachable hash t) :
    t.dir.length = 2 ^ GetGlobalDepth t :=
  (inv_reachable hash hR).dirLen

/-- C3 witness: holds at the state reached by one completed Insert on a
freshly constructed capacity-1 table. -/
theorem C3_directory_size_witness :
    (⟨1, 0, 1, [0], [⟨1, 0, [(0, 0)]⟩]⟩ : Table Nat Nat).dir.length =
      2 ^ GetGlobalDepth (⟨1, 0, 1, [0], [⟨1, 0, [(0, 0)]⟩]⟩ : Table Nat Nat) :=
  C3_directory_size id _
    (Reachable.insStep (mkTable 1) 1 0 0 _ (Reachable.init 1 (by decide)) (by decide))

/-- C4: in every reachable state, the bucket referenced from slot i with
local depth d is referenced from exactly 2 ^ (global_depth - d) directory
slots, those slots are exactly the indices agreeing with i on the low-order
d bits, and every referenced bucket has local depth at most the global
depth. -/
theorem C4_bucket_sharing (t : Table K V) (hR : Reachable hash t) :
    ∀ i, i < t.dir.length →
      ((Finset.range t.dir.length).filter
          fun j => t.dir.getD j 0 = t.dir.getD i 0).card =
        2 ^ (t.globalDepth - (bucketAt t i).depth)
      ∧ (∀ j, j < t.dir.length →
          (t.dir.getD j 0 = t.dir.getD i 0 ↔
            j % 2 ^ (bucketAt t i).depth = i % 2 ^ (bucketAt t i).depth))
      ∧ (bucketAt t i).depth ≤ t.globalDepth := by
  have hInv := inv_reachable hash hR
  intro i hi
  refine ⟨?_, hInv.share i hi, hInv.depthLe i hi⟩
  have hcong : (Finset.range t.dir.length).filter
      (fun j => t.dir.getD j 0 = t.dir.getD i 0) =
      (Finset.range t.dir.length).filter
      (fun j => j % 2 ^ (bucketAt t i).depth = i % 2 ^ (bucketAt t i).depth) := by
    apply Finset.filter_congr
    intro j hj
    exact hInv.share i hi j (Finset.mem_range.mp hj)
  rw [hcong, hInv.dirLen]
  exact card_filter_mod t.globalDepth _ _ (hInv.depthLe i hi) (mod_lt_two_pow _ _)

/-- C4 witness: the reachable capacity-2 state with global depth 1 and two
buckets of local depth 1: slot 0's bucket is referenced from exactly one
slot, slot 1 does not share it, and its depth is within the global depth. -/
theorem C4_bucket_sharing_witness :
    ((Finset.range (⟨2, 1, 2, [1, 2],
        [⟨2, 1, [(0, 10), (1, 11)]⟩, ⟨2, 1, [(0, 12)]⟩, ⟨2, 1, [(1, 11)]⟩]⟩ :
          Table Nat Nat).dir.length).filter
        fun j => (⟨2, 1, 2, [1, 2],
          [⟨2, 1, [(0, 10), (1, 11)]⟩, ⟨2, 1, [(0, 12)]⟩, ⟨2, 1, [(1, 11)]⟩]⟩ :
            Table Nat Nat).dir.getD j 0 =
          (⟨2, 1, 2, [1, 2],
            [⟨2, 1, [(0, 10), (1, 11)]⟩, ⟨2, 1, [(0, 12)]⟩, ⟨2, 1, [(1, 11)]⟩]⟩ :
              Table Nat Nat).dir.getD 0 0).card =
      2 ^ ((⟨2, 1, 2, [1, 2],
        [⟨2, 1, [(0, 10), (1, 11)]⟩, ⟨2, 1, [(0, 12)]⟩, ⟨2, 1, [(1, 11)]⟩]⟩ :
          Table Nat Nat).globalDepth -
        (bucketAt (⟨2, 1, 2, [1, 2],
          [⟨2, 1, [(0, 10), (1, 11)]⟩, ⟨2, 1, [(0, 12)]⟩, ⟨2, 1, [(1, 11)]⟩]⟩ :
            Table Nat Nat) 0).depth)
    ∧ ((⟨2, 1, 2, [1, 2],
        [⟨2, 1, [(0, 10), (1, 11)]⟩, ⟨2, 1, [(0, 12)]⟩, ⟨2, 1, [(1, 11)]⟩]⟩ :
          Table Nat Nat).dir.getD 1 0 =
        (⟨2, 1, 2, [1, 2],
          [⟨2, 1, [(0, 10), (1, 11)]⟩, ⟨2, 1, [(0, 12)]⟩, ⟨2, 1, [(1, 11)]⟩]⟩ :
            Table Nat Nat).dir.getD 0 0 ↔
        1 % 2 ^ (bucketAt (⟨2, 1, 2, [1, 2],
          [⟨2, 1, [(0, 10), (1, 11)]⟩, ⟨2, 1, [(0, 12)]⟩, ⟨2, 1, [(1, 11)]⟩]⟩ :
            Table Nat Nat) 0).depth =
        0 % 2 ^ (bucketAt (⟨2, 1, 2, [1, 2],
          [⟨2, 1, [(0, 10), (1, 11)]⟩, ⟨2, 1, [(0, 12)]⟩, ⟨2, 1, [(1, 11)]⟩]⟩ :
            Table Nat Nat) 0).depth)
    ∧ (bucketAt (⟨2, 1, 2, [1, 2],
        [⟨2, 1, [(0, 10), (1, 11)]⟩, ⟨2, 1, [(0, 12)]⟩, ⟨2, 1, [(1, 11)]⟩]⟩ :
          Table Nat Nat) 0).depth ≤
      (⟨2, 1, 2, [1, 2],
        [⟨2, 1, [(0, 10), (1, 11)]⟩, ⟨2, 1, [(0, 12)]⟩, ⟨2, 1, [(1, 11)]⟩]⟩ :
          Table Nat Nat).globalDepth := by
  have h := C4_bucket_sharing id
    (⟨2, 1, 2, [1, 2],
      [⟨2, 1, [(0, 10), (1, 11)]⟩, ⟨2, 1, [(0, 12)]⟩, ⟨2, 1, [(1, 11)]⟩]⟩ :
        Table Nat Nat)
    (Reachable.insStep _ 2 0 12
      (⟨2, 1, 2, [1, 2],
        [⟨2, 1, [(0, 10), (1, 11)]⟩, ⟨2, 1, [(0, 12)]⟩, ⟨2, 1, [(1, 11)]⟩]⟩ :
          Table Nat Nat)
      (Reachable.insStep _ 1 1 11
        (⟨2, 0, 1, [0], [⟨2, 0, [(0, 10), (1, 11)]⟩]⟩ : Table Nat Nat)
        (Reachable.insStep (mkTable 2) 1 0 10
          (⟨2, 0, 1, [0], [⟨2, 0, [(0, 10)]⟩]⟩ : Table Nat Nat)
          (Reachable.init 2 (by decide)) (by decide))
        (by decide))
      (by decide))
    0 (by decide)
  exact ⟨h.1, h.2.1 1 (by decide), h.2.2⟩

/-- C5: the code contradicts the claimed termination: on a capacity-1 table
holding (0, 0), re-inserting key 0 never exits the growth loop — for every
fuel bound the loop is still running, because each split sends the entry
back to the target bucket, which stays full.  The claim that Insert always
terminates within the hash bit-width is violated by the source ordering
(fullness is tested before key presence). -/
theorem C5_insert_diverges :
    Insert (id : Nat → Nat) 1 (mkTable 1 : Table Nat Nat) 0 0 =
      some ⟨1, 0, 1, [0], [⟨1, 0, [(0, 0)]⟩]⟩
    ∧ ∀ fuel : Nat, Insert (id : Nat → Nat) fuel
        (⟨1, 0, 1, [0], [⟨1, 0, [(0, 0)]⟩]⟩ : Table Nat Nat) 0 1 = none := by
  constructor
  · decide
  · intro fuel
    refine Insert_diverges id 0 1
      (fun t => Inv id t ∧ t.bucketSize = 1 ∧ (targetBucket id t 0).size = 1 ∧
        (targetBucket id t 0).list = [(0, 0)]) ?_ fuel _ ?_
    · rintro t ⟨hI, hbs, hsz, hlst⟩
      have hfull : (targetBucket id t 0).isFull = true := by
        rw [Bucket.isFull, hsz, hlst]
        rfl
      obtain ⟨m1, _, _, m4⟩ := splitStep_main id t 0 hI
      refine ⟨hfull, m1, ?_, ?_, ?_⟩
      · rw [splitStep_bucketSize]
        exact hbs
      · rw [m4, if_pos (show id 0 &&& 1 <<< (targetBucket id t 0).depth = 0
            from Nat.zero_and _)]
        exact hbs
      · rw [m4, if_pos (show id 0 &&& 1 <<< (targetBucket id t 0).depth = 0
            from Nat.zero_and _)]
        show List.filter _ (targetBucket id t 0).list = [(0, 0)]
        rw [hlst]
        simp
    · refine ⟨?_, rfl, rfl, rfl⟩
      exact inv_reachable id
        (Reachable.insStep (mkTable 1) 1 0 0 _ (Reachable.init 1 (by decide))
          (by decide))

/-- C6 counterexample: with capacity 2 insert keys 0 and 1 (both routed to
the single bucket), then re-insert the present key 0.  Before, key 0's
bucket holds 2 occupied entries; the re-insert splits the full bucket first,
and afterwards key 0's bucket holds 1 entry — the occupied-entry count of
k's bucket changed, contradicting the claim as stated. -/
theorem C6_counterexample :
    Insert (id : Nat → Nat) 1 (mkTable 2 : Table Nat Nat) 0 10 =
      some ⟨2, 0, 1, [0], [⟨2, 0, [(0, 10)]⟩]⟩
    ∧ Insert (id : Nat → Nat) 1
        (⟨2, 0, 1, [0], [⟨2, 0, [(0, 10)]⟩]⟩ : Table Nat Nat) 1 11 =
      some ⟨2, 0, 1, [0], [⟨2, 0, [(0, 10), (1, 11)]⟩]⟩
    ∧ (targetBucket (id : Nat → Nat)
        (⟨2, 0, 1, [0], [⟨2, 0, [(0, 10), (1, 11)]⟩]⟩ : Table Nat Nat) 0).list.length = 2
    ∧ Insert (id : Nat → Nat) 2
        (⟨2, 0, 1, [0], [⟨2, 0, [(0, 10), (1, 11)]⟩]⟩ : Table Nat Nat) 0 12 =
      some ⟨2, 1, 2, [1, 2],
        [⟨2, 1, [(0, 10), (1, 11)]⟩, ⟨2, 1, [(0, 12)]⟩, ⟨2, 1, [(1, 11)]⟩]⟩
    ∧ (targetBucket (id : Nat → Nat)
        (⟨2, 1, 2, [1, 2],
          [⟨2, 1, [(0, 10), (1, 11)]⟩, ⟨2, 1, [(0, 12)]⟩, ⟨2, 1, [(1, 11)]⟩]⟩ :
            Table Nat Nat) 0).list.length = 1
    ∧ Find (id : Nat → Nat)
        (⟨2, 1, 2, [1, 2],
          [⟨2, 1, [(0, 10), (1, 11)]⟩, ⟨2, 1, [(0, 12)]⟩, ⟨2, 1, [(1, 11)]⟩]⟩ :
            Table Nat Nat) 0 = some 12 := by
  decide

theorem set_target_targetBucket (t : Table K V) (k : K) (hInv : Inv hash t)
    (nb : Bucket K V) :
    targetBucket hash
      { t with buckets := t.buckets.set (targetId hash t k) nb } k = nb := by
  have hi0 : IndexOf hash t k < t.dir.length := IndexOf_lt_dirLen hash hInv.dirLen k
  have h := set_target_bucketAt hash t k hInv nb (IndexOf hash t k) hi0
  have hcc : t.dir.getD (IndexOf hash t k) 0 = targetId hash t k := rfl
  rw [if_pos hcc] at h
  exact h

/-- C6 (amended): Insert of an already-present key updates the stored value
in place and never appends a second entry for that key.  When the key's
bucket is not full, the directory, global depth, bucket count, and the
bucket's occupied-entry count and stored keys are all unchanged; when the
bucket is full the growth loop splits it first — which can change the
occupied-entry count of the bucket that ends up holding the key, as the
counterexample shows — after which the update happens in place there. -/
theorem C6_upsert_in_place (t : Table K V) (k : K) (v : V) (n : Nat)
    (hR : Reachable hash t)
    (hpresent : ((targetBucket hash t k).list.find?
      fun e => decide (e.1 = k)).isSome = true)
    (hnf : (targetBucket hash t k).isFull = false) :
    Insert hash (n + 1) t k v = some (upsert hash t k v)
    ∧ (upsert hash t k v).dir = t.dir
    ∧ (upsert hash t k v).globalDepth = t.globalDepth
    ∧ (upsert hash t k v).numBuckets = t.numBuckets
    ∧ (targetBucket hash (upsert hash t k v) k).list.length =
        (targetBucket hash t k).list.length
    ∧ (targetBucket hash (upsert hash t k v) k).list.map Prod.fst =
        (targetBucket hash t k).list.map Prod.fst
    ∧ Find hash (upsert hash t k v) k = some v := by
  have hInv := inv_reachable hash hR
  obtain ⟨u1, u2, u3, u4, u5, u6, u7⟩ := upsert_facts hash t k v hInv hnf
  have hloop : insertLoop hash (n + 1) t k = some t := by
    rw [insertLoop, if_neg (by simp [hnf])]
  have hins : Insert hash (n + 1) t k v = some (upsert hash t k v) := by
    unfold Insert
    rw [hloop]
    rfl
  rcases hfind : (targetBucket hash t k).list.find? (fun e => decide (e.1 = k))
    with _ | p
  · rw [hfind] at hpresent
    cases hpresent
  · have hup : upsert hash t k v =
        { t with buckets := (t.buckets.set (targetId hash t k)
            ({ size := (targetBucket hash t k).size,
               depth := (targetBucket hash t k).depth,
               list := updateFirst k v (targetBucket hash t k).list } : Bucket K V)) } := by
      simp only [upsert, hfind]
    have htb : targetBucket hash (upsert hash t k v) k =
        ({ size := (targetBucket hash t k).size,
           depth := (targetBucket hash t k).depth,
           list := updateFirst k v (targetBucket hash t k).list } : Bucket K V) := by
      rw [hup]
      exact set_target_targetBucket hash t k hInv _
    refine ⟨hins, u6, u4, u5, ?_, ?_, u2⟩
    · rw [htb]
      exact updateFirst_length k v _
    · rw [htb]
      exact updateFirst_map_fst k v _

/-- C6 amended witness: capacity 2 holding only (0, 10); re-inserting key 0
with value 12 updates in place, leaving every count and the key set
unchanged. -/
theorem C6_upsert_in_place_witness :
    Insert (id : Nat → Nat) 1
        (⟨2, 0, 1, [0], [⟨2, 0, [(0, 10)]⟩]⟩ : Table Nat Nat) 0 12 =
      some (upsert id (⟨2, 0, 1, [0], [⟨2, 0, [(0, 10)]⟩]⟩ : Table Nat Nat) 0 12)
    ∧ (upsert id (⟨2, 0, 1, [0], [⟨2, 0, [(0, 10)]⟩]⟩ : Table Nat Nat) 0 12).dir =
        (⟨2, 0, 1, [0], [⟨2, 0, [(0, 10)]⟩]⟩ : Table Nat Nat).dir
    ∧ (upsert id (⟨2, 0, 1, [0], [⟨2, 0, [(0, 10)]⟩]⟩ : Table Nat Nat) 0
        12).globalDepth =
        (⟨2, 0, 1, [0], [⟨2, 0, [(0, 10)]⟩]⟩ : Table Nat Nat).globalDepth
    ∧ (upsert id (⟨2, 0, 1, [0], [⟨2, 0, [(0, 10)]⟩]⟩ : Table Nat Nat) 0
        12).numBuckets =
        (⟨2, 0, 1, [0], [⟨2, 0, [(0, 10)]⟩]⟩ : Table Nat Nat).numBuckets
    ∧ (targetBucket id
        (upsert id (⟨2, 0, 1, [0], [⟨2, 0, [(0, 10)]⟩]⟩ : Table Nat Nat) 0 12)
        0).list.length =
      (targetBucket id (⟨2, 0, 1, [0], [⟨2, 0, [(0, 10)]⟩]⟩ : Table Nat Nat)
        0).list.length
    ∧ (targetBucket id
        (upsert id (⟨2, 0, 1, [0], [⟨2, 0, [(0, 10)]⟩]⟩ : Table Nat Nat) 0 12)
        0).list.map Prod.fst =
      (targetBucket id (⟨2, 0, 1, [0], [⟨2, 0, [(0, 10)]⟩]⟩ : Table Nat Nat)
        0).list.map Prod.fst
    ∧ Find id
        (upsert id (⟨2, 0, 1, [0], [⟨2, 0, [(0, 10)]⟩]⟩ : Table Nat Nat) 0 12)
        0 = some 12 :=
  C6_upsert_in_place id (⟨2, 0, 1, [0], [⟨2, 0, [(0, 10)]⟩]⟩ : Table Nat Nat)
    0 12 0
    (Reachable.insStep (mkTable 2) 1 0 10
      (⟨2, 0, 1, [0], [⟨2, 0, [(0, 10)]⟩]⟩ : Table Nat Nat)
      (Reachable.init 2 (by decide)) (by decide))
    (by decide) (by decide)

/-- C7: for a reachable state, Remove of an absent key returns false and
leaves the table exactly unchanged; Remove of a key present (which, keys
being unique, means Find returns its value) returns true, and a second
Remove of the same key immediately afterwards returns false. -/
theorem C7_remove_semantics (t : Table K V) (k : K) (hR : Reachable hash t) :
    (Find hash t k = none → Remove hash t k = (false, t))
    ∧ (∀ v, Find hash t k = some v →
        (Remove hash t k).1 = true ∧
          (Remove hash (Remove hash t k).2 k).1 = false) := by
  have hInv := inv_reachable hash hR
  refine ⟨Remove_absent hash t k, ?_⟩
  intro v hv
  obtain ⟨h1, h2, h3, _⟩ := Remove_facts hash t k hInv
  obtain ⟨hb, hnone⟩ := h3 v hv
  refine ⟨hb, ?_⟩
  rw [Remove_absent hash (Remove hash t k).2 k hnone]

/-- C7 witness: on the reachable capacity-1 table holding (0, 0): removing
key 1 (absent) is a no-op returning false; removing key 0 returns true and
a second removal of key 0 returns false. -/
theorem C7_remove_semantics_witness :
    Remove (id : Nat → Nat)
        (⟨1, 0, 1, [0], [⟨1, 0, [(0, 0)]⟩]⟩ : Table Nat Nat) 1 =
      (false, (⟨1, 0, 1, [0], [⟨1, 0, [(0, 0)]⟩]⟩ : Table Nat Nat))
    ∧ (Remove (id : Nat → Nat)
        (⟨1, 0, 1, [0], [⟨1, 0, [(0, 0)]⟩]⟩ : Table Nat Nat) 0).1 = true
    ∧ (Remove (id : Nat → Nat)
        (Remove (id : Nat → Nat)
          (⟨1, 0, 1, [0], [⟨1, 0, [(0, 0)]⟩]⟩ : Table Nat Nat) 0).2 0).1 =
      false := by
  have hr : Reachable (id : Nat → Nat)
      (⟨1, 0, 1, [0], [⟨1, 0, [(0, 0)]⟩]⟩ : Table Nat Nat) :=
    Reachable.insStep (mkTable 1) 1 0 0 _ (Reachable.init 1 (by decide))
      (by decide)
  refine ⟨(C7_remove_semantics id _ 1 hr).1 (by decide), ?_, ?_⟩
  · exact ((C7_remove_semantics id _ 0 hr).2 0 (by decide)).1
  · exact ((C7_remove_semantics id _ 0 hr).2 0 (by decide)).2

/-- C8: the constructor accepts capacity 0 without any rejection — it
returns an ordinary table — and on that table Insert never terminates: for
every fuel bound the growth loop is still running, since the empty bucket
of capacity 0 is permanently full.  The claimed fail-fast rejection does
not exist in the code. -/
theorem C8_zero_capacity_accepted :
    (mkTable 0 : Table Nat Nat) = ⟨0, 0, 1, [0], [⟨0, 0, []⟩]⟩
    ∧ ∀ fuel : Nat,
        Insert (id : Nat → Nat) fuel (mkTable 0 : Table Nat Nat) 0 0 = none := by
  constructor
  · rfl
  · intro fuel
    refine Insert_diverges id 0 0
      (fun t => Inv id t ∧ t.bucketSize = 0 ∧ (targetBucket id t 0).size = 0 ∧
        (targetBucket id t 0).list = []) ?_ fuel _ ?_
    · rintro t ⟨hI, hbs, hsz, hlst⟩
      have hfull : (targetBucket id t 0).isFull = true := by
        rw [Bucket.isFull, hsz, hlst]
        rfl
      obtain ⟨m1, _, _, m4⟩ := splitStep_main id t 0 hI
      refine ⟨hfull, m1, ?_, ?_, ?_⟩
      · rw [splitStep_bucketSize]
        exact hbs
      · rw [m4, if_pos (show id 0 &&& 1 <<< (targetBucket id t 0).depth = 0
            from Nat.zero_and _)]
        exact hbs
      · rw [m4, if_pos (show id 0 &&& 1 <<< (targetBucket id t 0).depth = 0
            from Nat.zero_and _)]
        show List.filter _ (targetBucket id t 0).list = []
        rw [hlst]
        rfl
    · exact ⟨inv_mkTable id 0, rfl, rfl, rfl⟩

/-- C9: GetLocalDepth performs the unchecked access dir_[dir_index]; on a
freshly constructed table (global depth 0, valid slot range [0, 1)) the
index 1 is out of range and the access has no defined result — the source
contains no bounds check and raises no error. -/
theorem C9_getLocalDepth_unchecked :
    (mkTable 1 : Table Nat Nat).globalDepth = 0
    ∧ (mkTable 1 : Table Nat Nat).dir.length = 1
    ∧ ¬1 < 2 ^ (mkTable 1 : Table Nat Nat).globalDepth
    ∧ GetLocalDepth? (mkTable 1 : Table Nat Nat) 1 = none
    ∧ GetLocalDepth? (mkTable 1 : Table Nat Nat) 0 = some 0 := by
  decide

/-- C10: across any completed sequence of Insert/Find/Remove operations,
GetGlobalDepth and GetNumBuckets never decrease; Remove in particular
leaves the global depth, the bucket count and the whole directory
unchanged — only Insert can grow them. -/
theorem C10_monotonicity (fuel : Nat) (ops : List (Op K V)) (t t' : Table K V)
    (h : applyOps hash fuel ops t = some t') :
    GetGlobalDepth t ≤ GetGlobalDepth t'
    ∧ GetNumBuckets t ≤ GetNumBuckets t'
    ∧ (∀ k, GetGlobalDepth (Remove hash t k).2 = GetGlobalDepth t
        ∧ GetNumBuckets (Remove hash t k).2 = GetNumBuckets t
        ∧ (Remove hash t k).2.dir = t.dir) := by
  obtain ⟨h1, h2⟩ := applyOps_mono hash fuel ops t t' h
  exact ⟨h1, h2, fun k => ⟨rfl, rfl, rfl⟩⟩

/-- C10 witness: the three-insert sequence that grows the directory once. -/
theorem C10_monotonicity_witness :
    GetGlobalDepth (mkTable 2 : Table Nat Nat) ≤
      GetGlobalDepth (⟨2, 1, 2, [1, 2],
        [⟨2, 1, [(0, 10), (1, 11)]⟩, ⟨2, 1, [(0, 12)]⟩, ⟨2, 1, [(1, 11)]⟩]⟩ :
          Table Nat Nat)
    ∧ GetNumBuckets (mkTable 2 : Table Nat Nat) ≤
      GetNumBuckets (⟨2, 1, 2, [1, 2],
        [⟨2, 1, [(0, 10), (1, 11)]⟩, ⟨2, 1, [(0, 12)]⟩, ⟨2, 1, [(1, 11)]⟩]⟩ :
          Table Nat Nat) :=
  ⟨(C10_monotonicity id 2 [Op.ins 0 10, Op.ins 1 11, Op.ins 0 12] (mkTable 2)
      (⟨2, 1, 2, [1, 2],
        [⟨2, 1, [(0, 10), (1, 11)]⟩, ⟨2, 1, [(0, 12)]⟩, ⟨2, 1, [(1, 11)]⟩]⟩ :
          Table Nat Nat) (by decide)).1,
   (C10_monotonicity id 2 [Op.ins 0 10, Op.ins 1 11, Op.ins 0 12] (mkTable 2)
      (⟨2, 1, 2, [1, 2],
        [⟨2, 1, [(0, 10), (1, 11)]⟩, ⟨2, 1, [(0, 12)]⟩, ⟨2, 1, [(1, 11)]⟩]⟩ :
          Table Nat Nat) (by decide)).2.1⟩

end ExtendibleHash
